import Mathlib

/- Verification of the graph-construction and edge-feature utilities of
   mlreco/utils/gnn/network.py, shallowly embedded in Lean.

   Conventions of the embedding:
   * An incidence matrix of shape (E,2) (and its final (2,E) transpose, which
     is a pure layout change) is represented as a list of index pairs; the
     one exception is loop_graph, whose behaviour depends on concrete array
     shapes, so its arrays are modelled concretely.
   * A dense distance matrix passed INTO a graph builder is modelled by its
     lookup function (i, j) ↦ entry, with rational entries standing for the
     float64 values.
   * Machine integers (numba int64) are modelled as ℕ (indices) and ℤ
     (batch ids, cluster ids); the index values that occur are far below
     2^63, so no wrap-around is modelled.
   * Fallible numpy operations (out-of-range row assignment) return Option;
     Python exceptions (assert, raise ValueError) become Except.error.
   * The Euclidean geometry (cdist_nb, norms) lives over ℝ in a second,
     noncomputable part of the development. -/

namespace GnnNetwork

/-- np.unique: the distinct values of l in ascending order. -/
def npUnique (l : List ℤ) : List ℤ := l.dedup.insertionSort (· ≤ ·)

/-- np.where(l == b)[0]: the positions of value b in l, ascending. -/
def whereEq (l : List ℤ) (b : ℤ) : List ℕ :=
  (List.range l.length).filter (fun i => l.getD i 0 = b)

/-- np.where(mask)[0] for a boolean mask: positions of True, ascending. -/
def whereBool (l : List Bool) : List ℕ :=
  (List.range l.length).filter (fun i => l.getD i false)

/-- The pruning block shared by the graph builders:
    `if max_dist > -1: assert dist_mat is not None; ...; ret = ret[dists < max_dist]`
    keeping the edges whose distance-matrix entry is strictly below max_dist. -/
def pruneEdges (ret : List (ℕ × ℕ)) (dist_mat : Option (ℕ → ℕ → ℚ))
    (max_dist : ℚ) : Except String (List (ℕ × ℕ)) :=
  if -1 < max_dist then
    match dist_mat with
    | none => Except.error "AssertionError: dist_mat is None"
    | some dm => Except.ok (ret.filter (fun e => decide (dm e.1 e.2 < max_dist)))
  else Except.ok ret

/-- `ret = np.vstack((ret, ret[:,::-1]))`: append the reciprocal of every edge. -/
def addReciprocal (ret : List (ℕ × ℕ)) : List (ℕ × ℕ) :=
  ret ++ ret.map (fun e => (e.2, e.1))

/-- Batch-class test of an edge: both endpoints carry batch id b. -/
def pB (bids : List ℤ) (b : ℤ) (e : ℕ × ℕ) : Bool :=
  decide (bids.getD e.1 0 = b) && decide (bids.getD e.2 0 = b)

/-- Inner loop of complete_graph: `for j in range(i+1, C): if batch_ids[i] ==
    batch_ids[j]: append (i, j)`; x is batch_ids[i] and j0 counts from i+1,
    walking the remaining suffix l of batch_ids. -/
def innerPairs (x : ℤ) (i : ℕ) : List ℤ → ℕ → List (ℕ × ℕ)
  | [], _ => []
  | y :: ys, j => (if y = x then [(i, j)] else []) ++ innerPairs x i ys (j+1)

/-- Outer loop of complete_graph over i, walking batch_ids with i the global
    index of the current head. -/
def completePairsAux : List ℤ → ℕ → List (ℕ × ℕ)
  | [], _ => []
  | x :: xs, i => innerPairs x i xs (i+1) ++ completePairsAux xs (i+1)

/-- `edge_count = int((sum_b (batch_ids == b).sum()**2 - len(batch_ids))/2)`. -/
def edgeCountZ (batch_ids : List ℤ) : ℤ :=
  (((npUnique batch_ids).map (fun b => ((batch_ids.count b : ℤ))^2)).sum
    - batch_ids.length) / 2

/-- complete_graph: all within-batch pairs i < j, optionally pruned by the
    distance matrix, then symmetrized; the early return for edge_count == 0
    precedes the pruning assert, as in the source. -/
def complete_graph (batch_ids : List ℤ) (dist_mat : Option (ℕ → ℕ → ℚ))
    (max_dist : ℚ) : Except String (List (ℕ × ℕ)) :=
  if edgeCountZ batch_ids = 0 then Except.ok [] else
  (pruneEdges (completePairsAux batch_ids 0) dist_mat max_dist).map addReciprocal

/-- bipartite_graph: every primary is paired with every non-primary of the same
    batch; after optional pruning, directed=True keeps the primary→secondary
    orientation ('secondary'), reverses it for 'primary' and raises on any
    other string, while directed=False symmetrizes without looking at
    directed_to. -/
def bipartite_graph (batch_ids : List ℤ) (primaries : List Bool)
    (dist_mat : Option (ℕ → ℕ → ℚ)) (max_dist : ℚ)
    (directed : Bool) (directed_to : String) : Except String (List (ℕ × ℕ)) :=
  let ret := (whereBool primaries).flatMap (fun i =>
    (whereBool (primaries.map (fun p => !p))).filterMap (fun j =>
      if batch_ids.getD i 0 = batch_ids.getD j 0 then some (i, j) else none))
  (pruneEdges ret dist_mat max_dist).bind (fun ret =>
    if directed then
      if directed_to = "primary" then Except.ok (ret.map (fun e => (e.2, e.1)))
      else if directed_to = "secondary" then Except.ok ret
      else Except.error "Graph orientation not recognized"
    else Except.ok (addReciprocal ret))

/-- np.argsort, modelled as a stable sort of the indices by value (numpy's
    order among tied values is implementation-defined; no theorem below
    depends on it). -/
def npArgsort (l : List ℚ) : List ℕ :=
  (l.enum.insertionSort (fun p q => p.2 ≤ q.2)).map (fun p => p.1)

/-- Modelled from the spec: submatrix_nb (from mlreco/utils/numba, which is not
    among the staged sources) restricts a matrix to the given row and column
    index lists: "the sub-block of the distance matrix restricted to that
    batch's clusters". -/
def submatrix_nb (dm : ℕ → ℕ → ℚ) (rows cols : List ℕ) : List (List ℚ) :=
  rows.map (fun r => cols.map (fun c => dm r c))

/-- The body of knn_graph's per-batch loop: if the batch holds more than one
    cluster, each cluster i is joined to its k nearest other clusters by the
    distance submatrix (argsort of row i, the head dropped as the self
    entry), the neighbor indices sorted ascending. -/
def knnBatch (batch_ids : List ℤ) (k : ℕ) (dist_mat : ℕ → ℕ → ℚ) (b : ℤ) :
    List (ℕ × ℕ) :=
  let clust_ids := whereEq batch_ids b
  if 1 < clust_ids.length then
    let subk := min (k+1) clust_ids.length
    let submat := submatrix_nb dist_mat clust_ids clust_ids
    (List.range clust_ids.length).flatMap (fun i =>
      let idxs := ((npArgsort (submat.getD i [])).drop 1).take (subk - 1)
      (idxs.insertionSort (· ≤ ·)).map (fun idx =>
        (clust_ids.getD i 0, clust_ids.getD idx 0)))
  else []

/-- knn_graph: the per-batch edges concatenated over np.unique(batch_ids),
    then symmetrized. -/
def knn_graph (batch_ids : List ℤ) (k : ℕ) (dist_mat : ℕ → ℕ → ℚ) :
    List (ℕ × ℕ) :=
  addReciprocal ((npUnique batch_ids).flatMap (knnBatch batch_ids k dist_mat))

/-- np.triu: zero the entries strictly below the diagonal. -/
def npTriu (m : List (List ℚ)) : List (List ℚ) :=
  m.enum.map (fun ri => ri.2.enum.map (fun cj => if cj.1 < ri.1 then 0 else cj.2))

/-- np.where(m > 0) on a 2-d array, paired row-major. -/
def matWherePos (m : List (List ℚ)) : List (ℕ × ℕ) :=
  m.enum.flatMap (fun ri =>
    ri.2.enum.filterMap (fun cj => if 0 < cj.2 then some (ri.1, cj.1) else none))

/-- mst_graph: per batch, a minimum-spanning-tree matrix is obtained from the
    upper-triangular distance sub-block through the external scipy routine
    (the nb.objmode escape hatch), modelled as the oracle parameter mstOracle;
    its positive entries are emitted as edges, then pruning and
    symmetrization. A call with dist_mat=None fails inside submatrix_nb
    before any edge is built, so the model takes the matrix as given and the
    pruning assert is trivially satisfied. -/
def mstBatch (mstOracle : List (List ℚ) → List (List ℚ))
    (batch_ids : List ℤ) (dist_mat : ℕ → ℕ → ℚ) (b : ℤ) : List (ℕ × ℕ) :=
  let clust_ids := whereEq batch_ids b
  if 1 < clust_ids.length then
    let submat := npTriu (submatrix_nb dist_mat clust_ids clust_ids)
    let mst_mat := mstOracle submat
    (matWherePos mst_mat).map (fun e =>
      (clust_ids.getD e.1 0, clust_ids.getD e.2 0))
  else []

def mst_graph (mstOracle : List (List ℚ) → List (List ℚ))
    (batch_ids : List ℤ) (dist_mat : ℕ → ℕ → ℚ) (max_dist : ℚ) :
    List (ℕ × ℕ) :=
  let ret := (npUnique batch_ids).flatMap (mstBatch mstOracle batch_ids dist_mat)
  let ret := if -1 < max_dist then
    ret.filter (fun e => decide (dist_mat e.1 e.2 < max_dist)) else ret
  addReciprocal ret

/-- The oracle stands for scipy's minimum_spanning_tree composed with toarray,
    which always returns a matrix of the input's square shape; theorems about
    mst_graph assume exactly that. -/
def MstShape (mstOracle : List (List ℚ) → List (List ℚ)) : Prop :=
  ∀ m, (mstOracle m).length = m.length ∧ ∀ r ∈ mstOracle m, r.length = m.length

/-- Set entry (i, j) of a boolean matrix to true (a no-op out of range; the
    indices used below are in range by construction). -/
def matSet (m : List (List Bool)) (i j : ℕ) : List (List Bool) :=
  m.set i ((m.getD i []).set j true)

/-- np.where on a 2-d boolean array, paired row-major. -/
def matWhereTrue (m : List (List Bool)) : List (ℕ × ℕ) :=
  m.enum.flatMap (fun ri =>
    ri.2.enum.filterMap (fun cj => if cj.2 then some (ri.1, cj.1) else none))

/-- delaunay_graph: per batch, the batch's voxels are concatenated (mask) with
    their local cluster index (labels); the external Delaunay triangulation
    (the nb.objmode escape hatch, modelled as the oracle parameter triOracle)
    yields simplices over those points, any two distinct clusters sharing a
    simplex are marked adjacent, and the adjacency's true entries become
    edges; then pruning and symmetrization. Coordinates are the first three
    data columns. -/
def delaunayBatch (triOracle : List (ℚ × ℚ × ℚ) → List (List ℕ))
    (data : List ((ℚ × ℚ × ℚ) × ℤ)) (clusts : List (List ℕ))
    (batch_ids : List ℤ) (b : ℤ) : List (ℕ × ℕ) :=
  let clust_ids := whereEq batch_ids b
  let n := clust_ids.length
  let mask := clust_ids.flatMap (fun ci => clusts.getD ci [])
  let labels := (List.range n).flatMap
    (fun i => List.replicate (clusts.getD (clust_ids.getD i 0) []).length i)
  let tri := triOracle (mask.map (fun v => (data.getD v ((0,0,0), 0)).1))
  let adj := tri.foldl (fun adj s =>
    s.foldl (fun adj i => s.foldl (fun adj j =>
      if labels.getD i 0 < labels.getD j 0 then
        matSet adj (labels.getD i 0) (labels.getD j 0) else adj) adj) adj)
    (List.replicate n (List.replicate n false))
  (matWhereTrue adj).map (fun e =>
    (clust_ids.getD e.1 0, clust_ids.getD e.2 0))

def delaunay_graph (triOracle : List (ℚ × ℚ × ℚ) → List (List ℕ))
    (data : List ((ℚ × ℚ × ℚ) × ℤ)) (clusts : List (List ℕ))
    (batch_ids : List ℤ) (dist_mat : Option (ℕ → ℕ → ℚ)) (max_dist : ℚ) :
    Except String (List (ℕ × ℕ)) :=
  let ret := (npUnique batch_ids).flatMap
    (delaunayBatch triOracle data clusts batch_ids)
  (pruneEdges ret dist_mat max_dist).map addReciprocal

/-- numpy row assignment `mat[k] = v` on a 2-d array: an error (None) unless
    row k exists and v broadcasts, i.e. has exactly the row's length. -/
def npSetRow (mat : List (List ℤ)) (k : ℕ) (v : List ℤ) :
    Option (List (List ℤ)) :=
  match mat.get? k with
  | none => none
  | some row => if v.length = row.length then some (mat.set k v) else none

/-- loop_graph as written: `ret = np.empty((2,n))` — two rows of length n,
    although the docstring promises the transposed shape — then `ret[k] =
    [k,k]` for each k < n, and finally `ret.T` (the rows of the transpose).
    np.empty is uninitialized; the junk entries are modelled as 0. The row
    assignment only succeeds when n = 2. -/
def loop_graph (n : ℕ) : Option (List (List ℤ)) :=
  (((List.range n).foldlM (fun ret k => npSetRow ret k [(k : ℤ), (k : ℤ)])
    (List.replicate 2 (List.replicate n 0)))).map List.transpose

/-- Read a returned (2,E) array as its list of edges (the k-th columns). -/
def decodeIncidence (m : List (List ℤ)) : List (ℤ × ℤ) :=
  match m with
  | [r0, r1] => r0.zip r1
  | _ => []

/-- _get_fragment_edges: each edge of ids is translated to the first positions
    of its endpoints in clust_ids, and dropped when either endpoint is
    absent. -/
def _get_fragment_edges (graph : List (ℤ × ℤ)) (clust_ids : List ℤ) :
    List (ℤ × ℤ) :=
  graph.filterMap (fun e =>
    match whereEq clust_ids e.1, whereEq clust_ids e.2 with
    | i :: _, j :: _ => some ((i : ℤ), (j : ℤ))
    | _, _ => none)

/-- The identity local-id list 0, 1, ..., C-1. -/
def idList (C : ℕ) : List ℤ := (List.range C).map (fun (i : ℕ) => (i : ℤ))

/- The Euclidean part: voxel coordinates are idealized as real triples (the
   source holds float32/float64 values). -/

noncomputable section

abbrev Vec3 := ℝ × ℝ × ℝ

def vsub (a b : Vec3) : Vec3 := (a.1 - b.1, a.2.1 - b.2.1, a.2.2 - b.2.2)

/-- np.linalg.norm of a 3-vector. -/
def vnorm (a : Vec3) : ℝ := Real.sqrt (a.1^2 + a.2.1^2 + a.2.2^2)

/-- Euclidean distance of two points. -/
def edist3 (a b : Vec3) : ℝ := vnorm (vsub a b)

def vsmul (c : ℝ) (a : Vec3) : Vec3 := (c * a.1, c * a.2.1, c * a.2.2)

/-- np.outer(a, a).flatten(): the nine products row-major. -/
def outerFlat (a : Vec3) : List ℝ :=
  [a.1 * a.1, a.1 * a.2.1, a.1 * a.2.2,
   a.2.1 * a.1, a.2.1 * a.2.1, a.2.1 * a.2.2,
   a.2.2 * a.1, a.2.2 * a.2.1, a.2.2 * a.2.2]

def vlist (a : Vec3) : List ℝ := [a.1, a.2.1, a.2.2]

/-- Modelled from the spec: cdist_nb (from mlreco/utils/numba, which is not
    among the staged sources) is the pairwise Euclidean distance matrix of two
    point lists. -/
def cdist_nb (x1 x2 : List Vec3) : List (List ℝ) :=
  x1.map (fun p => x2.map (fun q => edist3 p q))

/-- np.min over a matrix. numpy rejects an empty array; the junk value 0
    stands for that case and every theorem below assumes nonempty input. -/
def npMin (m : List (List ℝ)) : ℝ :=
  match m.flatten with
  | [] => 0
  | x :: xs => xs.foldl min x

/-- First position of the minimum in a list, numpy argmin style. -/
def argminAux : List ℝ → ℝ → ℕ → ℕ → ℕ
  | [], _, _, best => best
  | x :: xs, cur, i, best =>
      if x < cur then argminAux xs x (i+1) i else argminAux xs cur (i+1) best

/-- np.argmin of a matrix: flat row-major position of the first minimum
    (0 on an empty array, which numpy rejects). -/
def npArgmin (m : List (List ℝ)) : ℕ :=
  match m.flatten with
  | [] => 0
  | x :: xs => argminAux xs x 1 0

/-- voxels[clusts[i]][:, :3]: the coordinates of cluster i's voxels. -/
def clusterPoints (voxels : List Vec3) (clusts : List (List ℕ)) (i : ℕ) :
    List Vec3 :=
  (clusts.getD i []).map (fun v => voxels.getD v (0, 0, 0))

/-- Entry (i, j) the sequential loop of _inter_cluster_distance leaves in
    dist_mat: the upper triangle gets np.min of cdist_nb over the two
    clusters, the lower triangle copies the symmetric entry written by the
    earlier iteration, and every other entry keeps the np.zeros
    initialization. (The source runs the outer loop under nb.prange; the
    model is the loop's sequential semantics.) -/
def icdEntry (voxels : List Vec3) (clusts : List (List ℕ)) (batch_ids : List ℤ)
    (i j : ℕ) : ℝ :=
  if batch_ids.getD i 0 = batch_ids.getD j 0 then
    if i < j then
      npMin (cdist_nb (clusterPoints voxels clusts i)
        (clusterPoints voxels clusts j))
    else if j < i then
      npMin (cdist_nb (clusterPoints voxels clusts j)
        (clusterPoints voxels clusts i))
    else 0
  else 0

def _inter_cluster_distance (voxels : List Vec3) (clusts : List (List ℕ))
    (batch_ids : List ℤ) : List (List ℝ) :=
  (List.range batch_ids.length).map (fun i =>
    (List.range batch_ids.length).map (fun j =>
      icdEntry voxels clusts batch_ids i j))

/-- The public wrapper inter_cluster_distance(voxels, clsuts, batch_ids): its
    body is `return _inter_cluster_distance(voxels, clusts, batch_ids, mode)`,
    but neither `clusts` (the parameter is spelled `clsuts`) nor `mode` is
    bound in any enclosing scope, so under Python name resolution evaluating
    the body raises NameError before _inter_cluster_distance is entered. -/
def inter_cluster_distance (voxels : List Vec3) (clsuts : List (List ℕ))
    (batch_ids : List ℤ) : Except String (List (List ℝ)) :=
  Except.error "NameError: name clusts is not defined"

/-- The body of the _get_cluster_edge_features loop for one edge e: the
    closest points of approach v1, v2 of the two clusters (first flat argmin
    of cdist_nb), the displacement v1 - v2 normalized unless its norm is 0,
    the distance, and the flattened outer product. -/
def clusterEdgeRow (data : List Vec3) (clusts : List (List ℕ)) (e : ℕ × ℕ) :
    List ℝ :=
  let x1 := clusterPoints data clusts e.1
  let x2 := clusterPoints data clusts e.2
  let imin := npArgmin (cdist_nb x1 x2)
  let v1 := x1.getD (imin / x2.length) (0, 0, 0)
  let v2 := x2.getD (imin % x2.length) (0, 0, 0)
  let disp := vsub v1 v2
  let lend := vnorm disp
  let disp := if 0 < lend then vsmul (1 / lend) disp else disp
  vlist v1 ++ vlist v2 ++ vlist disp ++ [lend] ++ outerFlat disp

def _get_cluster_edge_features (data : List Vec3) (clusts : List (List ℕ))
    (edge_index : List (ℕ × ℕ)) : List (List ℝ) :=
  edge_index.map (clusterEdgeRow data clusts)

/-- The body of the _get_voxel_edge_features loop for one edge e: the two
    voxels' coordinates, the displacement xj - xi normalized unless its norm
    is 0, the distance, and the flattened outer product. -/
def voxelEdgeRow (data : List Vec3) (e : ℕ × ℕ) : List ℝ :=
  let xi := data.getD e.1 (0, 0, 0)
  let xj := data.getD e.2 (0, 0, 0)
  let disp := vsub xj xi
  let lend := vnorm disp
  let disp := if 0 < lend then vsmul (1 / lend) disp else disp
  vlist xi ++ vlist xj ++ vlist disp ++ [lend] ++ outerFlat disp

def _get_voxel_edge_features (data : List Vec3) (edge_index : List (ℕ × ℕ)) :
    List (List ℝ) :=
  edge_index.map (voxelEdgeRow data)

/-- Entry (i, j) of a matrix held as a list of rows, 0 out of range. -/
def mget (m : List (List ℝ)) (i j : ℕ) : ℝ := (m.getD i []).getD j 0

/-- The properties claim C5 asserts of a single 19-entry feature row: writing
    r6..r8 for the displacement block and r10..r18 for the 3×3 block, the
    distance r9 is nonnegative and is the Euclidean distance of the two CPA
    points r0..r2 and r3..r5, the displacement is zero exactly when r9 is 0
    and is a unit vector otherwise, and the tail is the flattened outer
    product of the displacement, hence symmetric, positive semi-definite, of
    trace at most 1. -/
def FeatureRowProps (r : List ℝ) : Prop :=
  r.length = 19 ∧
  0 ≤ r.getD 9 0 ∧
  r.getD 9 0 = edist3 (r.getD 0 0, r.getD 1 0, r.getD 2 0)
    (r.getD 3 0, r.getD 4 0, r.getD 5 0) ∧
  ((r.getD 6 0, r.getD 7 0, r.getD 8 0) = ((0, 0, 0) : Vec3) ↔
    r.getD 9 0 = 0) ∧
  (r.getD 9 0 ≠ 0 → vnorm (r.getD 6 0, r.getD 7 0, r.getD 8 0) = 1) ∧
  r.drop 10 = outerFlat (r.getD 6 0, r.getD 7 0, r.getD 8 0) ∧
  (∀ a b : ℕ, a < 3 → b < 3 →
    r.getD (10 + 3*a + b) 0 = r.getD (10 + 3*b + a) 0) ∧
  r.getD 10 0 + r.getD 14 0 + r.getD 18 0 ≤ 1 ∧
  (∀ w : Vec3, 0 ≤
    r.getD 10 0 * w.1 * w.1 + r.getD 11 0 * w.1 * w.2.1 +
    r.getD 12 0 * w.1 * w.2.2 + r.getD 13 0 * w.2.1 * w.1 +
    r.getD 14 0 * w.2.1 * w.2.1 + r.getD 15 0 * w.2.1 * w.2.2 +
    r.getD 16 0 * w.2.2 * w.1 + r.getD 17 0 * w.2.2 * w.2.1 +
    r.getD 18 0 * w.2.2 * w.2.2)

end

/- ------------------------------------------------------------------ -/
/- Theorems.                                                          -/
/- ------------------------------------------------------------------ -/

/- General list utilities. -/

theorem getD_map_range {α : Type} (f : ℕ → α) (n i : ℕ) (d : α) :
    ((List.range n).map f).getD i d = if i < n then f i else d := by
  by_cases h : i < n
  · simp [List.getD_eq_getElem?_getD, List.getElem?_map, List.getElem?_range, h]
  · have : (List.range n)[i]? = none := by
      simp [List.getElem?_eq_none_iff, Nat.le_of_not_lt h]
    simp [List.getD_eq_getElem?_getD, List.getElem?_map, this, h]

theorem getD_drop (l : List ℤ) (off t : ℕ) :
    (l.drop off).getD t 0 = l.getD (off + t) 0 := by
  simp [List.getD_eq_getElem?_getD, List.getElem?_drop]

theorem tail_drop_eq (l : List ℤ) (n : ℕ) : (l.drop n).tail = l.drop (n+1) := by
  rw [← List.drop_drop]
  simp [List.drop_one]

theorem getD_mem_of_lt {α : Type} (l : List α) (i : ℕ) (d : α)
    (h : i < l.length) : l.getD i d ∈ l := by
  rw [List.getD_eq_getElem?_getD, List.getElem?_eq_getElem h]
  exact List.getElem_mem h

theorem mem_whereEq (l : List ℤ) (b : ℤ) (x : ℕ) :
    x ∈ whereEq l b ↔ x < l.length ∧ l.getD x 0 = b := by
  simp [whereEq, List.mem_filter, List.mem_range]

/- The fragment-edge mapper over the identity id list. -/

theorem length_idList (C : ℕ) : (idList C).length = C := by
  rw [idList, List.length_map, List.length_range]

theorem getD_idList (C i : ℕ) :
    (idList C).getD i 0 = if i < C then (i : ℤ) else 0 := by
  simp only [idList]
  exact getD_map_range _ C i 0

theorem filter_range_intEq (C : ℕ) (v : ℤ) :
    (List.range C).filter (fun (i : ℕ) => decide ((i : ℤ) = v)) =
      if 0 ≤ v ∧ v < (C : ℤ) then [v.toNat] else [] := by
  induction C with
  | zero => rw [if_neg (by omega)]; rfl
  | succ c ih =>
      rw [List.range_succ, List.filter_append, ih]
      by_cases hv : v = (c : ℤ)
      · subst hv
        rw [if_neg (by omega), if_pos (by constructor <;> omega)]
        simp
      · by_cases hc : 0 ≤ v ∧ v < (c : ℤ)
        · rw [if_pos hc, if_pos (by omega)]
          simp [hv]
          omega
        · rw [if_neg hc, if_neg (by omega)]
          simp
          omega

theorem whereEq_idList (C : ℕ) (v : ℤ) :
    whereEq (idList C) v = if 0 ≤ v ∧ v < (C : ℤ) then [v.toNat] else [] := by
  unfold whereEq
  rw [length_idList]
  have h : List.filter (fun i => decide ((idList C).getD i 0 = v))
        (List.range C) =
      List.filter (fun (i : ℕ) => decide ((i : ℤ) = v)) (List.range C) :=
    List.filter_congr (fun i hi => by
      rw [List.mem_range] at hi
      rw [getD_idList, if_pos hi])
  rw [h, filter_range_intEq]

theorem fge_idList (g : List (ℤ × ℤ)) (C : ℕ) :
    _get_fragment_edges g (idList C) =
      g.filter (fun e => decide (0 ≤ e.1 ∧ e.1 < (C : ℤ)) &&
        decide (0 ≤ e.2 ∧ e.2 < (C : ℤ))) := by
  induction g with
  | nil => rfl
  | cons e g ih =>
      unfold _get_fragment_edges at ih ⊢
      rw [List.filterMap_cons, List.filter_cons, whereEq_idList, whereEq_idList]
      by_cases h1 : 0 ≤ e.1 ∧ e.1 < (C : ℤ) <;>
        by_cases h2 : 0 ≤ e.2 ∧ e.2 < (C : ℤ)
      · rw [if_pos h1, if_pos h2]
        simp only [h1, h2, decide_eq_true_eq, Bool.and_self, ite_true]
        rw [ih]
        simp [Int.toNat_of_nonneg h1.1, Int.toNat_of_nonneg h2.1]
      · rw [if_pos h1, if_neg h2]
        simpa [h2] using ih
      · rw [if_neg h1, if_pos h2]
        simpa [h1] using ih
      · rw [if_neg h1, if_neg h2]
        simpa [h1] using ih

theorem mem_innerPairs (x : ℤ) (i : ℕ) :
    ∀ (l : List ℤ) (j0 : ℕ) (p : ℕ × ℕ),
    p ∈ innerPairs x i l j0 ↔
      ∃ t, t < l.length ∧ l.getD t 0 = x ∧ p = (i, j0 + t) := by
  intro l
  induction l with
  | nil => intro j0 p; simp [innerPairs]
  | cons y ys ih =>
      intro j0 p
      unfold innerPairs
      rw [List.mem_append, ih (j0+1) p]
      constructor
      · rintro (hp | ⟨t, ht, hx, rfl⟩)
        · by_cases hy : y = x
          · rw [if_pos hy, List.mem_singleton] at hp
            exact ⟨0, by simp, by simpa using hy, by simpa using hp⟩
          · rw [if_neg hy] at hp; simp at hp
        · exact ⟨t+1, by simpa using ht, by simpa using hx, by
            simp [Nat.add_assoc, Nat.add_comm 1 t]⟩
      · rintro ⟨t, ht, hx, rfl⟩
        cases t with
        | zero =>
            left
            rw [List.getD_cons_zero] at hx
            rw [if_pos hx]
            simp
        | succ s =>
            right
            rw [List.getD_cons_succ] at hx
            exact ⟨s, by simpa using ht, hx, by
              simp [Nat.add_assoc, Nat.add_comm 1 s]⟩

theorem countP_innerPairs (bids : List ℤ) (b x : ℤ) (i : ℕ) :
    ∀ (l : List ℤ) (j0 : ℕ),
    (∀ t, t < l.length → bids.getD (j0 + t) 0 = l.getD t 0) →
    bids.getD i 0 = x →
    (innerPairs x i l j0).countP (pB bids b) =
      if x = b then l.count b else 0 := by
  intro l
  induction l with
  | nil => intro j0 _ _; simp [innerPairs]
  | cons y ys ih =>
      intro j0 hagree hx
      have hy : bids.getD j0 0 = y := by simpa using hagree 0 (by simp)
      have hrec := ih (j0+1) (fun t ht => by
        have := hagree (t+1) (by simpa using ht)
        simpa [Nat.add_assoc, Nat.add_comm 1 t] using this) hx
      unfold innerPairs
      rw [List.countP_append, hrec]
      by_cases hyx : y = x
      · rw [if_pos hyx]
        have hhead : List.countP (pB bids b) [(i, j0)] =
            if x = b then 1 else 0 := by
          simp only [List.countP_singleton, pB, hx, hy, hyx]
          by_cases hxb : x = b <;> simp [hxb]
        rw [hhead]
        by_cases hxb : x = b
        · subst hxb
          simp [List.count_cons, hyx]
          omega
        · simp [hxb]
      · rw [if_neg hyx]
        simp only [List.countP_nil, Nat.zero_add]
        by_cases hxb : x = b
        · subst hxb
          simp [List.count_cons, hyx]
        · simp [hxb]

theorem countP_completePairsAux (bids : List ℤ) (b : ℤ) :
    ∀ (l : List ℤ) (i0 : ℕ),
    (∀ t, t < l.length → bids.getD (i0 + t) 0 = l.getD t 0) →
    (completePairsAux l i0).countP (pB bids b) = (l.count b).choose 2 := by
  intro l
  induction l with
  | nil => intro i0 _; simp [completePairsAux]
  | cons x xs ih =>
      intro i0 hagree
      have hx : bids.getD i0 0 = x := by simpa using hagree 0 (by simp)
      have hagree' : ∀ t, t < xs.length → bids.getD (i0 + 1 + t) 0 = xs.getD t 0 := by
        intro t ht
        have := hagree (t+1) (by simpa using ht)
        simpa [Nat.add_assoc, Nat.add_comm 1 t] using this
      unfold completePairsAux
      rw [List.countP_append, ih (i0+1) hagree',
        countP_innerPairs bids b x i0 xs (i0+1) hagree' hx]
      by_cases hxb : x = b
      · subst hxb
        rw [if_pos rfl]
        have hc : List.count x (x :: xs) = xs.count x + 1 := by
          simp [List.count_cons]
        rw [hc, Nat.choose_succ_succ (xs.count x) 1, Nat.choose_one_right]
      · rw [if_neg hxb]
        have hc : List.count b (x :: xs) = xs.count b := by
          simp [List.count_cons, hxb]
        rw [hc]
        omega

theorem mem_completePairsAux :
    ∀ (l : List ℤ) (i0 : ℕ) (p : ℕ × ℕ),
    p ∈ completePairsAux l i0 ↔
      ∃ a c, a < c ∧ c < l.length ∧ l.getD a 0 = l.getD c 0 ∧
        p = (i0 + a, i0 + c) := by
  intro l
  induction l with
  | nil => intro i0 p; simp [completePairsAux]
  | cons x xs ih =>
      intro i0 p
      unfold completePairsAux
      rw [List.mem_append, ih (i0+1) p, mem_innerPairs]
      constructor
      · rintro (⟨t, ht, hx, rfl⟩ | ⟨a, c, hac, hc, heq, rfl⟩)
        · refine ⟨0, t+1, by omega, by simpa using ht, ?_, ?_⟩
          · rw [List.getD_cons_zero, List.getD_cons_succ]; exact hx.symm
          · simp [Nat.add_assoc, Nat.add_comm 1 t]
        · refine ⟨a+1, c+1, by omega, by simpa using hc, ?_, ?_⟩
          · rw [List.getD_cons_succ, List.getD_cons_succ]; exact heq
          · simp [Nat.add_assoc, Nat.add_comm 1 a, Nat.add_comm 1 c]
      · rintro ⟨a, c, hac, hc, heq, rfl⟩
        cases a with
        | zero =>
            left
            obtain ⟨s, rfl⟩ : ∃ s, c = s + 1 := ⟨c - 1, by omega⟩
            rw [List.getD_cons_zero, List.getD_cons_succ] at heq
            exact ⟨s, by simpa using hc, heq.symm, by
              simp [Nat.add_assoc, Nat.add_comm 1 s]⟩
        | succ a' =>
            right
            obtain ⟨s, rfl⟩ : ∃ s, c = s + 1 := ⟨c - 1, by omega⟩
            rw [List.getD_cons_succ, List.getD_cons_succ] at heq
            exact ⟨a', s, by omega, by simpa using hc, heq, by
              simp only [Prod.mk.injEq]
              omega⟩

theorem two_mul_choose_two (m : ℕ) : 2 * m.choose 2 = m * (m - 1) := by
  induction m with
  | zero => rfl
  | succ k ih =>
      rw [Nat.choose_succ_succ k 1, Nat.choose_one_right, Nat.mul_add, ih,
        Nat.succ_sub_one]
      cases k with
      | zero => rfl
      | succ j =>
          rw [Nat.succ_sub_one]
          ring

theorem sum_map_add_nat {α : Type} (l : List α) (f g : α → ℕ) :
    (l.map (fun x => f x + g x)).sum = (l.map f).sum + (l.map g).sum := by
  induction l with
  | nil => rfl
  | cons x xs ih => simp [ih]; omega

theorem sum_ite_key (v : ℤ) (keys : List ℤ) (hnd : keys.Nodup) (hv : v ∈ keys) :
    (keys.map (fun b => if v = b then 1 else 0)).sum = 1 := by
  induction keys with
  | nil => simp at hv
  | cons k ks ih =>
      rw [List.map_cons, List.sum_cons]
      rcases List.mem_cons.mp hv with rfl | hv'
      · rw [if_pos rfl]
        have : (ks.map (fun b => if v = b then 1 else 0)).sum = 0 := by
          apply List.sum_eq_zero
          intro x hx
          rcases List.mem_map.mp hx with ⟨b, hb, rfl⟩
          have : v ≠ b := fun h => (List.nodup_cons.mp hnd).1 (h ▸ hb)
          simp [this]
        omega
      · have hne : v ≠ k := fun h => (List.nodup_cons.mp hnd).1 (h ▸ hv')
        rw [if_neg hne, ih (List.nodup_cons.mp hnd).2 hv']

theorem sum_countP_key {α : Type} (l : List α) (f : α → ℤ) (keys : List ℤ)
    (hnd : keys.Nodup) (hmem : ∀ x ∈ l, f x ∈ keys) :
    (keys.map (fun b => l.countP (fun x => decide (f x = b)))).sum = l.length := by
  induction l with
  | nil => simp
  | cons x xs ih =>
      have h1 : (keys.map (fun b => (x :: xs).countP (fun y => decide (f y = b)))) =
          keys.map (fun b => xs.countP (fun y => decide (f y = b)) +
            if f x = b then 1 else 0) := by
        apply List.map_congr_left
        intro b hb
        rw [List.countP_cons]
        by_cases h : f x = b <;> simp [h]
      rw [h1, sum_map_add_nat, ih (fun y hy => hmem y (List.mem_cons_of_mem x hy)),
        sum_ite_key (f x) keys hnd (hmem x (List.mem_cons_self x xs))]
      simp

theorem perm_npUnique (l : List ℤ) : List.Perm (npUnique l) l.dedup :=
  List.perm_insertionSort _ l.dedup

theorem sum_map_npUnique {β : Type} [AddCommMonoid β] (l : List ℤ) (f : ℤ → β) :
    ((npUnique l).map f).sum = (l.dedup.map f).sum :=
  ((perm_npUnique l).map f).sum_eq

theorem sum_count_dedup_int (l : List ℤ) :
    (l.dedup.map (fun b => ((l.count b : ℤ)))).sum = l.length := by
  have h1 : (l.dedup.map (fun b => ((l.count b : ℤ)))).sum =
      (((l.dedup.map (fun b => l.count b)).sum : ℕ) : ℤ) := by
    rw [Nat.cast_list_sum, List.map_map]
    rfl
  rw [h1, List.sum_map_count_dedup_eq_length]

theorem sum_map_sub_int {α : Type} (l : List α) (f g : α → ℤ) :
    (l.map (fun x => f x - g x)).sum = (l.map f).sum - (l.map g).sum := by
  induction l with
  | nil => simp
  | cons x xs ih => simp [ih]; ring

theorem int_le_sq (a : ℤ) (h : 0 ≤ a) : a ≤ a ^ 2 := by
  rcases eq_or_lt_of_le h with h1 | h1
  · simp [← h1]
  · have h2 : (1 : ℤ) ≤ a := h1
    nlinarith

theorem count_le_one_of_edgeCountZ_zero (l : List ℤ) (h : edgeCountZ l = 0) :
    ∀ b : ℤ, l.count b ≤ 1 := by
  intro b
  by_cases hb : b ∈ l
  · have hS : ((l.dedup.map (fun v => ((l.count v : ℤ))^2)).sum -
        (l.length : ℤ)) / 2 = 0 := by
      unfold edgeCountZ at h
      rwa [sum_map_npUnique] at h
    have hT : (l.dedup.map (fun v => ((l.count v : ℤ)))).sum = l.length :=
      sum_count_dedup_int l
    have hsub : (l.dedup.map (fun v => ((l.count v : ℤ))^2 - l.count v)).sum =
        (l.dedup.map (fun v => ((l.count v : ℤ))^2)).sum - (l.length : ℤ) := by
      rw [sum_map_sub_int, hT]
    have hpt : ∀ x ∈ l.dedup.map (fun v => ((l.count v : ℤ))^2 - l.count v),
        0 ≤ x := by
      intro x hx
      rcases List.mem_map.mp hx with ⟨v, _, rfl⟩
      have := int_le_sq ((l.count v : ℤ)) (Int.natCast_nonneg _)
      omega
    have hge : 0 ≤ (l.dedup.map (fun v => ((l.count v : ℤ))^2)).sum -
        (l.length : ℤ) := by
      rw [← hsub]
      exact List.sum_nonneg hpt
    have hle : (l.dedup.map (fun v => ((l.count v : ℤ))^2)).sum -
        (l.length : ℤ) ≤ 1 := by omega
    have hbd : b ∈ l.dedup := List.mem_dedup.mpr hb
    have hsingle : ((l.count b : ℤ))^2 - l.count b ≤
        (l.dedup.map (fun v => ((l.count v : ℤ))^2 - l.count v)).sum :=
      List.single_le_sum hpt _ (List.mem_map_of_mem _ hbd)
    have hfin : ((l.count b : ℤ))^2 - l.count b ≤ 1 := by
      calc ((l.count b : ℤ))^2 - l.count b ≤ _ := hsingle
        _ ≤ 1 := by rw [hsub]; exact hle
    by_contra hc
    have h2 : (2 : ℤ) ≤ (l.count b : ℤ) := by exact_mod_cast by omega
    nlinarith
  · have : l.count b = 0 := List.count_eq_zero.mpr hb
    omega

theorem two_le_count_of_getD_eq (l : List ℤ) (a c : ℕ) (hac : a < c)
    (hc : c < l.length) (h : l.getD a 0 = l.getD c 0) :
    2 ≤ l.count (l.getD c 0) := by
  have ha : a < l.length := lt_trans hac hc
  have hv1 : l.getD c 0 ∈ l.take (a+1) := by
    have hlen : a < (l.take (a+1)).length := by
      simp [List.length_take]
      omega
    have heq : (l.take (a+1)).getD a 0 = l.getD a 0 := by
      simp [List.getD_eq_getElem?_getD, List.getElem?_take, Nat.lt_succ_self]
    have := getD_mem_of_lt (l.take (a+1)) a 0 hlen
    rwa [heq, h] at this
  have hv2 : l.getD c 0 ∈ l.drop (a+1) := by
    have hlen : c - (a+1) < (l.drop (a+1)).length := by
      simp [List.length_drop]
      omega
    have heq : (l.drop (a+1)).getD (c - (a+1)) 0 = l.getD c 0 := by
      rw [getD_drop]
      congr 1
      omega
    have := getD_mem_of_lt (l.drop (a+1)) (c - (a+1)) 0 hlen
    rwa [heq] at this
  have h1 : 0 < (l.take (a+1)).count (l.getD c 0) :=
    List.count_pos_iff.mpr hv1
  have h2 : 0 < (l.drop (a+1)).count (l.getD c 0) :=
    List.count_pos_iff.mpr hv2
  have hsplit : (l.take (a+1) ++ l.drop (a+1)).count (l.getD c 0) =
      (l.take (a+1)).count (l.getD c 0) + (l.drop (a+1)).count (l.getD c 0) :=
    List.count_append _ _ _
  rw [List.take_append_drop] at hsplit
  omega

theorem pruneEdges_no_thresh (ret : List (ℕ × ℕ))
    (dist_mat : Option (ℕ → ℕ → ℚ)) (max_dist : ℚ) (h : ¬ (-1 : ℚ) < max_dist) :
    pruneEdges ret dist_mat max_dist = Except.ok ret := by
  simp [pruneEdges, h]

theorem pruneEdges_ok_sub {ret : List (ℕ × ℕ)} {dist_mat : Option (ℕ → ℕ → ℚ)}
    {max_dist : ℚ} {es : List (ℕ × ℕ)}
    (h : pruneEdges ret dist_mat max_dist = Except.ok es) : ∀ e ∈ es, e ∈ ret := by
  unfold pruneEdges at h
  split at h
  · cases dist_mat with
    | none => simp at h
    | some dm =>
        simp only [Except.ok.injEq] at h
        subst h
        exact fun e he => List.mem_of_mem_filter he
  · simp only [Except.ok.injEq] at h
    subst h
    exact fun e he => he

theorem mem_addReciprocal (l : List (ℕ × ℕ)) (p : ℕ × ℕ) :
    p ∈ addReciprocal l ↔ p ∈ l ∨ (p.2, p.1) ∈ l := by
  unfold addReciprocal
  rw [List.mem_append, List.mem_map]
  constructor
  · rintro (hp | ⟨q, hq, rfl⟩)
    · exact Or.inl hp
    · exact Or.inr hq
  · rintro (hp | hp)
    · exact Or.inl hp
    · exact Or.inr ⟨(p.2, p.1), hp, rfl⟩

theorem swap_mem_addReciprocal {l : List (ℕ × ℕ)} {p : ℕ × ℕ}
    (hp : p ∈ addReciprocal l) : (p.2, p.1) ∈ addReciprocal l := by
  rw [mem_addReciprocal] at hp ⊢
  simpa [Or.comm] using hp

theorem length_addReciprocal (l : List (ℕ × ℕ)) :
    (addReciprocal l).length = 2 * l.length := by
  unfold addReciprocal
  rw [List.length_append, List.length_map]
  omega

theorem countP_addReciprocal (l : List (ℕ × ℕ)) (f : ℕ × ℕ → Bool)
    (hsym : ∀ e : ℕ × ℕ, f (e.2, e.1) = f e) :
    (addReciprocal l).countP f = 2 * l.countP f := by
  unfold addReciprocal
  rw [List.countP_append, List.countP_map]
  have : (f ∘ fun e : ℕ × ℕ => (e.2, e.1)) = f := funext (fun e => hsym e)
  rw [this]
  omega

theorem exceptMap_ok {α β : Type} {f : α → β} {x : Except String α} {es : β}
    (h : Except.map f x = Except.ok es) : ∃ y, x = Except.ok y ∧ es = f y := by
  cases x with
  | error e => simp [Except.map] at h
  | ok y =>
      refine ⟨y, rfl, ?_⟩
      simpa [Except.map] using h.symm

/-- C8: with no threshold (max_dist = -1), complete_graph returns, for every
    batch id b with m clusters, exactly m(m-1) directed edges whose endpoints
    both carry b, and its total edge count is the sum of m(m-1) over the
    distinct batch ids. -/
theorem complete_graph_edge_counts (batch_ids : List ℤ)
    (dist_mat : Option (ℕ → ℕ → ℚ)) :
    ∃ es, complete_graph batch_ids dist_mat (-1) = Except.ok es ∧
      (∀ b : ℤ, es.countP (pB batch_ids b) =
        batch_ids.count b * (batch_ids.count b - 1)) ∧
      es.length = ((npUnique batch_ids).map
        (fun b => batch_ids.count b * (batch_ids.count b - 1))).sum := by
  by_cases h0 : edgeCountZ batch_ids = 0
  · refine ⟨[], by simp [complete_graph, h0], fun b => ?_, ?_⟩
    · have hb := count_le_one_of_edgeCountZ_zero _ h0 b
      have hz : batch_ids.count b - 1 = 0 := by omega
      simp [hz]
    · symm
      apply List.sum_eq_zero
      intro x hx
      rcases List.mem_map.mp hx with ⟨b, _, rfl⟩
      have hb := count_le_one_of_edgeCountZ_zero _ h0 b
      have hz : batch_ids.count b - 1 = 0 := by omega
      simp [hz]
  · have hprune : pruneEdges (completePairsAux batch_ids 0) dist_mat (-1) =
        Except.ok (completePairsAux batch_ids 0) :=
      pruneEdges_no_thresh _ _ _ (lt_irrefl _)
    refine ⟨addReciprocal (completePairsAux batch_ids 0), ?_, fun b => ?_, ?_⟩
    · simp [complete_graph, h0, hprune, Except.map]
    · rw [countP_addReciprocal _ _ (fun e => by simp [pB, Bool.and_comm]),
        countP_completePairsAux batch_ids b batch_ids 0
          (fun t _ => by rw [Nat.zero_add]),
        two_mul_choose_two]
    · rw [length_addReciprocal]
      have hcls : ∀ p ∈ completePairsAux batch_ids 0,
          batch_ids.getD p.1 0 ∈ batch_ids.dedup := by
        intro p hp
        rw [mem_completePairsAux] at hp
        obtain ⟨a, c, hac, hc, heq, rfl⟩ := hp
        simp only [Nat.zero_add]
        exact List.mem_dedup.mpr (getD_mem_of_lt _ _ _ (lt_trans hac hc))
      have hpart := sum_countP_key (completePairsAux batch_ids 0)
        (fun p => batch_ids.getD p.1 0) batch_ids.dedup
        (List.nodup_dedup batch_ids) hcls
      have hperkey : ∀ b ∈ batch_ids.dedup,
          (completePairsAux batch_ids 0).countP
            (fun p => decide (batch_ids.getD p.1 0 = b)) =
          (batch_ids.count b).choose 2 := by
        intro b _
        rw [← countP_completePairsAux batch_ids b batch_ids 0
          (fun t _ => by rw [Nat.zero_add])]
        apply List.countP_congr
        intro p hp
        rw [mem_completePairsAux] at hp
        obtain ⟨a, c, hac, hc, heq, rfl⟩ := hp
        simp only [pB, Nat.zero_add, heq]
        cases hd : decide (batch_ids.getD c 0 = b) <;> simp [hd]
      have hsum1 : (completePairsAux batch_ids 0).length =
          (batch_ids.dedup.map (fun b => (batch_ids.count b).choose 2)).sum := by
        rw [← hpart]
        congr 1
        exact List.map_congr_left hperkey
      rw [hsum1, sum_map_npUnique, ← List.sum_map_mul_left]
      congr 1
      apply List.map_congr_left
      intro b _
      rw [two_mul_choose_two]

/-- C6 (amended): with a distance matrix and a threshold supplied, the
    complete graph contains a candidate pair (i, j), i < j, exactly when the
    pair is a valid same-batch pair AND its distance-matrix entry is strictly
    below the threshold: pruning removes the edges whose entry is greater
    than or equal to the threshold, so an edge at exactly the threshold is
    removed (see the counterexample above). -/
theorem complete_graph_prunes_strictly (batch_ids : List ℤ) (dm : ℕ → ℕ → ℚ)
    (max_dist : ℚ) (es : List (ℕ × ℕ)) (hmd : -1 < max_dist)
    (hes : complete_graph batch_ids (some dm) max_dist = Except.ok es)
    (i j : ℕ) (hij : i < j) :
    (i, j) ∈ es ↔
      (j < batch_ids.length ∧ batch_ids.getD i 0 = batch_ids.getD j 0 ∧
        dm i j < max_dist) := by
  unfold complete_graph at hes
  by_cases h0 : edgeCountZ batch_ids = 0
  · rw [if_pos h0] at hes
    obtain rfl : ([] : List (ℕ × ℕ)) = es := by simpa using hes
    simp only [List.not_mem_nil, false_iff]
    rintro ⟨hj, heq, _⟩
    have h2 := two_le_count_of_getD_eq batch_ids i j hij hj heq
    have h1 := count_le_one_of_edgeCountZ_zero _ h0 (batch_ids.getD j 0)
    omega
  · rw [if_neg h0] at hes
    have hpr : pruneEdges (completePairsAux batch_ids 0) (some dm) max_dist =
        Except.ok ((completePairsAux batch_ids 0).filter
          (fun e => decide (dm e.1 e.2 < max_dist))) := by
      simp [pruneEdges, hmd]
    rw [hpr] at hes
    obtain rfl : addReciprocal ((completePairsAux batch_ids 0).filter
        (fun e => decide (dm e.1 e.2 < max_dist))) = es := by
      simpa [Except.map] using hes
    rw [mem_addReciprocal]
    constructor
    · rintro (hp | hp)
      · rw [List.mem_filter] at hp
        obtain ⟨hp1, hp2⟩ := hp
        rw [mem_completePairsAux] at hp1
        obtain ⟨a, c, hac, hc, heq, hpe⟩ := hp1
        simp only [Nat.zero_add, Prod.mk.injEq] at hpe
        obtain ⟨rfl, rfl⟩ := hpe
        exact ⟨hc, heq, by simpa using hp2⟩
      · rw [List.mem_filter] at hp
        obtain ⟨hp1, _⟩ := hp
        rw [mem_completePairsAux] at hp1
        obtain ⟨a, c, hac, hc, heq, hpe⟩ := hp1
        simp only [Nat.zero_add, Prod.mk.injEq] at hpe
        omega
    · rintro ⟨hj, heq, hlt⟩
      left
      rw [List.mem_filter]
      refine ⟨?_, by simpa using hlt⟩
      rw [mem_completePairsAux]
      exact ⟨i, j, hij, hj, heq, by simp⟩

theorem complete_graph_prunes_strictly_witness :
    (-1 : ℚ) < 2 ∧ (0 : ℕ) < 1 ∧
      (((0, 1) : ℕ × ℕ) ∈ [((0 : ℕ), (1 : ℕ)), (1, 0)] ↔
        (1 < ([(0 : ℤ), 0]).length ∧
          ([(0 : ℤ), 0]).getD 0 0 = ([(0 : ℤ), 0]).getD 1 0 ∧
          (fun (_ _ : ℕ) => (1 : ℚ)) 0 1 < 2)) :=
  ⟨by decide, by decide,
    complete_graph_prunes_strictly [0, 0] (fun _ _ => 1) 2 [(0, 1), (1, 0)]
      (by decide) rfl 0 1 (by decide)⟩

/-- C7 (amended): mapping an edge list twice against the same local id list
    equals mapping once when the local id list is the identity list
    [0, ..., C-1] (one application then only filters out-of-range ids); the
    counterexample above shows idempotence fails for general id lists. -/
theorem fragment_edges_idempotent_on_identity (g : List (ℤ × ℤ)) (C : ℕ) :
    _get_fragment_edges (_get_fragment_edges g (idList C)) (idList C) =
      _get_fragment_edges g (idList C) := by
  rw [fge_idList, fge_idList, List.filter_filter]
  exact List.filter_congr (fun e he => by
    cases h1 : decide (0 ≤ e.1 ∧ e.1 < (C : ℤ)) <;>
      cases h2 : decide (0 ≤ e.2 ∧ e.2 < (C : ℤ)) <;> rfl)

/-- C1 (code_bug evidence): loop_graph, as written, allocates ret with shape
    (2, n) instead of (n, 2), so the row assignment ret[k] = [k, k] fails for
    every n other than 2 (a length-2 value cannot broadcast into a row of
    length n, and rows beyond the second do not exist); only n = 2 returns
    the self-loop incidence matrix the docstring promises. -/
theorem loop_graph_shape_bug :
    loop_graph 1 = none ∧ loop_graph 3 = none ∧
      loop_graph 2 = some [[0, 1], [0, 1]] :=
  ⟨rfl, rfl, rfl⟩

/-- C6 counterexample: an edge whose distance-matrix entry equals the
    threshold exactly is removed, not kept: two same-batch clusters at
    distance 1 with max_dist = 1 yield an empty graph. -/
theorem complete_graph_drops_edge_at_threshold :
    complete_graph [0, 0] (some (fun _ _ => 1)) 1 = Except.ok [] := rfl

/-- C7 counterexample: _get_fragment_edges is not idempotent: over the local
    id list [5, 0], the edge (5, 0) maps to (0, 1), which a second
    application drops (1 is not a listed id), so mapping twice differs from
    mapping once. -/
theorem fragment_edges_not_idempotent :
    _get_fragment_edges (_get_fragment_edges [(5, 0)] [5, 0]) [5, 0] ≠
      _get_fragment_edges [(5, 0)] [5, 0] := by decide

/-- C9 counterexample: with directed=False, an unrecognized orientation
    string is silently ignored rather than raised: the call returns the
    symmetrized bipartite graph. -/
theorem bipartite_ignores_orientation_when_undirected :
    bipartite_graph [0, 0] [true, false] none (-1) false "bogus" =
      Except.ok [(0, 1), (1, 0)] := rfl

/-- C9 (amended): when directed=True and the orientation string is neither
    'primary' nor 'secondary', bipartite_graph raises the descriptive
    orientation error (provided the earlier pruning assert does not fire
    first); with directed=False the string is never consulted. -/
theorem bipartite_directed_bad_orientation_errors
    (batch_ids : List ℤ) (primaries : List Bool)
    (dist_mat : Option (ℕ → ℕ → ℚ)) (max_dist : ℚ) (directed_to : String)
    (hp : directed_to ≠ "primary") (hs : directed_to ≠ "secondary")
    (hd : max_dist ≤ -1 ∨ dist_mat ≠ none) :
    bipartite_graph batch_ids primaries dist_mat max_dist true directed_to =
      Except.error "Graph orientation not recognized" := by
  by_cases hm : (-1 : ℚ) < max_dist
  · rcases hd with h | h
    · exact absurd hm (not_lt.mpr h)
    · cases dist_mat with
      | none => exact absurd rfl h
      | some dm => simp [bipartite_graph, pruneEdges, Except.bind, hm, hp, hs]
  · simp [bipartite_graph, pruneEdges, Except.bind, hm, hp, hs]

theorem bipartite_directed_bad_orientation_errors_witness :
    bipartite_graph [0] [true] none (-1) true "up" =
      Except.error "Graph orientation not recognized" :=
  bipartite_directed_bad_orientation_errors [0] [true] none (-1) "up"
    (by decide) (by decide) (Or.inl (by norm_num))

/- Membership facts for the per-batch graph builders. -/

theorem getD_map_lt {α β : Type} (f : α → β) (l : List α) (i : ℕ) (d : β)
    (d' : α) (h : i < l.length) : (l.map f).getD i d = f (l.getD i d') := by
  rw [List.getD_eq_getElem?_getD, List.getElem?_map, List.getElem?_eq_getElem h]
  simp [List.getD_eq_getElem?_getD, List.getElem?_eq_getElem h]

theorem whereEq_batch (bids : List ℤ) (b : ℤ) (x : ℕ) (hx : x ∈ whereEq bids b) :
    bids.getD x 0 = b := ((mem_whereEq bids b x).mp hx).2

theorem clustIds_getD_batch (bids : List ℤ) (b : ℤ) (p : ℕ)
    (hp : p < (whereEq bids b).length) :
    bids.getD ((whereEq bids b).getD p 0) 0 = b :=
  whereEq_batch bids b _ (getD_mem_of_lt _ p 0 hp)

theorem mem_npArgsort_lt (l : List ℚ) (x : ℕ) (hx : x ∈ npArgsort l) :
    x < l.length := by
  unfold npArgsort at hx
  rcases List.mem_map.mp hx with ⟨p, hp, rfl⟩
  have hp' : p ∈ l.enum := (List.perm_insertionSort _ _).mem_iff.mp hp
  exact List.fst_lt_of_mem_enum hp'

theorem mem_matWhereTrue (m : List (List Bool)) (e : ℕ × ℕ)
    (he : e ∈ matWhereTrue m) :
    e.1 < m.length ∧ ∃ r ∈ m, e.2 < r.length := by
  unfold matWhereTrue at he
  rcases List.mem_flatMap.mp he with ⟨ri, hri, hcol⟩
  rcases List.mem_filterMap.mp hcol with ⟨cj, hcj, hcjeq⟩
  by_cases hc : cj.2 = true
  · rw [if_pos hc] at hcjeq
    obtain rfl : (ri.1, cj.1) = e := by simpa using hcjeq
    exact ⟨List.fst_lt_of_mem_enum hri,
      ri.2, List.snd_mem_of_mem_enum hri, List.fst_lt_of_mem_enum hcj⟩
  · rw [if_neg hc] at hcjeq
    simp at hcjeq

theorem mem_matWherePos (m : List (List ℚ)) (e : ℕ × ℕ)
    (he : e ∈ matWherePos m) :
    e.1 < m.length ∧ ∃ r ∈ m, e.2 < r.length := by
  unfold matWherePos at he
  rcases List.mem_flatMap.mp he with ⟨ri, hri, hcol⟩
  rcases List.mem_filterMap.mp hcol with ⟨cj, hcj, hcjeq⟩
  by_cases hc : 0 < cj.2
  · rw [if_pos hc] at hcjeq
    obtain rfl : (ri.1, cj.1) = e := by simpa using hcjeq
    exact ⟨List.fst_lt_of_mem_enum hri,
      ri.2, List.snd_mem_of_mem_enum hri, List.fst_lt_of_mem_enum hcj⟩
  · rw [if_neg hc] at hcjeq
    simp at hcjeq

theorem matSet_shape (n : ℕ) (m : List (List Bool)) (i j : ℕ)
    (h1 : m.length = n) (h2 : ∀ r ∈ m, r.length = n) :
    (matSet m i j).length = n ∧ ∀ r ∈ matSet m i j, r.length = n := by
  unfold matSet
  refine ⟨by simpa using h1, ?_⟩
  by_cases hi : i < m.length
  · intro r hr
    rcases List.mem_or_eq_of_mem_set hr with hr' | rfl
    · exact h2 r hr'
    · rw [List.length_set]
      exact h2 _ (getD_mem_of_lt m i [] hi)
  · rw [List.set_eq_of_length_le (Nat.le_of_not_lt hi)]
    exact h2

theorem foldl_preserve {α β : Type} (P : α → Prop) (f : α → β → α)
    (hf : ∀ a b, P a → P (f a b)) :
    ∀ (l : List β) (a : α), P a → P (l.foldl f a) := by
  intro l
  induction l with
  | nil => intro a ha; exact ha
  | cons x xs ih => intro a ha; exact ih _ (hf a x ha)

theorem exceptBind_ok {α β : Type} {x : Except String α}
    {f : α → Except String β} {es : β} (h : x.bind f = Except.ok es) :
    ∃ y, x = Except.ok y ∧ f y = Except.ok es := by
  cases x with
  | error e => simp [Except.bind] at h
  | ok y => exact ⟨y, rfl, by simpa [Except.bind] using h⟩

theorem mem_knnBatch (batch_ids : List ℤ) (k : ℕ) (dm : ℕ → ℕ → ℚ) (b : ℤ)
    (p : ℕ × ℕ) (hp : p ∈ knnBatch batch_ids k dm b) :
    ∃ i idx, i < (whereEq batch_ids b).length ∧
      idx < (whereEq batch_ids b).length ∧
      p = ((whereEq batch_ids b).getD i 0, (whereEq batch_ids b).getD idx 0) := by
  unfold knnBatch at hp
  by_cases hlen : 1 < (whereEq batch_ids b).length
  · rw [if_pos hlen] at hp
    rcases List.mem_flatMap.mp hp with ⟨i, hi, hmap⟩
    rw [List.mem_range] at hi
    rcases List.mem_map.mp hmap with ⟨idx, hidx, rfl⟩
    have hidx2 : idx ∈ npArgsort ((submatrix_nb dm (whereEq batch_ids b)
        (whereEq batch_ids b)).getD i []) :=
      List.mem_of_mem_drop (List.mem_of_mem_take
        ((List.perm_insertionSort _ _).mem_iff.mp hidx))
    have hrow : (submatrix_nb dm (whereEq batch_ids b)
        (whereEq batch_ids b)).getD i [] =
        (whereEq batch_ids b).map
          (fun c => dm ((whereEq batch_ids b).getD i 0) c) := by
      unfold submatrix_nb
      exact getD_map_lt _ _ i [] 0 hi
    have hlt : idx < (whereEq batch_ids b).length := by
      have := mem_npArgsort_lt _ idx hidx2
      rwa [hrow, List.length_map] at this
    exact ⟨i, idx, hi, hlt, rfl⟩
  · rw [if_neg hlen] at hp
    simp at hp

theorem mem_mstBatch (mstOracle : List (List ℚ) → List (List ℚ))
    (hshape : MstShape mstOracle) (batch_ids : List ℤ) (dm : ℕ → ℕ → ℚ)
    (b : ℤ) (p : ℕ × ℕ) (hp : p ∈ mstBatch mstOracle batch_ids dm b) :
    ∃ i idx, i < (whereEq batch_ids b).length ∧
      idx < (whereEq batch_ids b).length ∧
      p = ((whereEq batch_ids b).getD i 0, (whereEq batch_ids b).getD idx 0) := by
  unfold mstBatch at hp
  by_cases hlen : 1 < (whereEq batch_ids b).length
  · rw [if_pos hlen] at hp
    rcases List.mem_map.mp hp with ⟨e, he, rfl⟩
    obtain ⟨h1, r, hr, h2⟩ := mem_matWherePos _ e he
    have hsub : (npTriu (submatrix_nb dm (whereEq batch_ids b)
        (whereEq batch_ids b))).length = (whereEq batch_ids b).length := by
      unfold npTriu submatrix_nb
      rw [List.length_map, List.enum_length, List.length_map]
    have hrows := hshape (npTriu (submatrix_nb dm (whereEq batch_ids b)
      (whereEq batch_ids b)))
    refine ⟨e.1, e.2, ?_, ?_, rfl⟩
    · rw [hrows.1, hsub] at h1
      exact h1
    · rw [hrows.2 r hr, hsub] at h2
      exact h2
  · rw [if_neg hlen] at hp
    simp at hp

theorem mem_delaunayBatch (triOracle : List (ℚ × ℚ × ℚ) → List (List ℕ))
    (data : List ((ℚ × ℚ × ℚ) × ℤ)) (clusts : List (List ℕ))
    (batch_ids : List ℤ) (b : ℤ) (p : ℕ × ℕ)
    (hp : p ∈ delaunayBatch triOracle data clusts batch_ids b) :
    ∃ i idx, i < (whereEq batch_ids b).length ∧
      idx < (whereEq batch_ids b).length ∧
      p = ((whereEq batch_ids b).getD i 0, (whereEq batch_ids b).getD idx 0) := by
  unfold delaunayBatch at hp
  rcases List.mem_map.mp hp with ⟨e, he, rfl⟩
  have hshape : ∀ (tri : List (List ℕ)) (labels : List ℕ)
      (m0 : List (List Bool)),
      m0.length = (whereEq batch_ids b).length →
      (∀ r ∈ m0, r.length = (whereEq batch_ids b).length) →
      (tri.foldl (fun adj s =>
        s.foldl (fun adj i => s.foldl (fun adj j =>
          if labels.getD i 0 < labels.getD j 0 then
            matSet adj (labels.getD i 0) (labels.getD j 0) else adj) adj) adj)
        m0).length = (whereEq batch_ids b).length ∧
      (∀ r ∈ tri.foldl (fun adj s =>
        s.foldl (fun adj i => s.foldl (fun adj j =>
          if labels.getD i 0 < labels.getD j 0 then
            matSet adj (labels.getD i 0) (labels.getD j 0) else adj) adj) adj)
        m0, r.length = (whereEq batch_ids b).length) := by
    intro tri labels m0 hm1 hm2
    refine foldl_preserve (fun m => m.length = (whereEq batch_ids b).length ∧
      ∀ r ∈ m, r.length = (whereEq batch_ids b).length) _ ?_ tri m0 ⟨hm1, hm2⟩
    intro m s hm
    refine foldl_preserve (fun m => m.length = (whereEq batch_ids b).length ∧
      ∀ r ∈ m, r.length = (whereEq batch_ids b).length) _ ?_ s m hm
    intro m i hmi
    refine foldl_preserve (fun m => m.length = (whereEq batch_ids b).length ∧
      ∀ r ∈ m, r.length = (whereEq batch_ids b).length) _ ?_ s m hmi
    intro m j hmj
    by_cases hij : labels.getD i 0 < labels.getD j 0
    · rw [if_pos hij]
      exact ⟨(matSet_shape _ m _ _ hmj.1 hmj.2).1,
        (matSet_shape _ m _ _ hmj.1 hmj.2).2⟩
    · rw [if_neg hij]
      exact hmj
  obtain ⟨h1, r, hr, h2⟩ := mem_matWhereTrue _ e he
  have hs := hshape
    (triOracle (List.map (fun v => (data.getD v ((0,0,0), 0)).1)
      ((whereEq batch_ids b).flatMap fun ci => clusts.getD ci [])))
    ((List.range (whereEq batch_ids b).length).flatMap fun i =>
      List.replicate (clusts.getD ((whereEq batch_ids b).getD i 0) []).length i)
    (List.replicate (whereEq batch_ids b).length
      (List.replicate (whereEq batch_ids b).length false))
    (by rw [List.length_replicate])
    (fun r hr => by rw [List.eq_of_mem_replicate hr, List.length_replicate])
  refine ⟨e.1, e.2, ?_, ?_, rfl⟩
  · exact Nat.lt_of_lt_of_eq h1 hs.1
  · exact Nat.lt_of_lt_of_eq h2 (hs.2 r hr)

theorem mem_bipartite_core (batch_ids : List ℤ) (primaries : List Bool)
    (e : ℕ × ℕ)
    (he : e ∈ (whereBool primaries).flatMap (fun i =>
      (whereBool (primaries.map (fun p => !p))).filterMap (fun j =>
        if batch_ids.getD i 0 = batch_ids.getD j 0 then some (i, j) else none))) :
    batch_ids.getD e.1 0 = batch_ids.getD e.2 0 := by
  rcases List.mem_flatMap.mp he with ⟨i, hi, hj⟩
  rcases List.mem_filterMap.mp hj with ⟨j, hjmem, hjeq⟩
  by_cases hb : batch_ids.getD i 0 = batch_ids.getD j 0
  · rw [if_pos hb] at hjeq
    obtain rfl : (i, j) = e := by simpa using hjeq
    exact hb
  · rw [if_neg hb] at hjeq
    simp at hjeq

theorem loop_graph_ge3 (m : ℕ) : loop_graph (m+3) = none := by
  unfold loop_graph
  rw [List.range_succ_eq_map, List.foldlM_cons]
  have h : npSetRow (List.replicate 2 (List.replicate (m+3) 0)) 0
      [((0:ℕ) : ℤ), ((0:ℕ) : ℤ)] = none := by
    unfold npSetRow
    have h0 : (List.replicate 2 (List.replicate (m+3) (0:ℤ))).get? 0 =
        some (List.replicate (m+3) 0) := by simp
    rw [h0]
    show (if [((0:ℕ) : ℤ), ((0:ℕ) : ℤ)].length =
        (List.replicate (m+3) (0:ℤ)).length then
      some ((List.replicate 2 (List.replicate (m+3) (0:ℤ))).set 0
        [((0:ℕ) : ℤ), ((0:ℕ) : ℤ)]) else none) = none
    rw [if_neg (by
      simp only [List.length_cons, List.length_nil, List.length_replicate]
      omega)]
  rw [h]
  rfl

/-- C4: for every strategy, no returned edge connects clusters whose batch
    ids differ: loop_graph only ever produces self-loops (when it returns at
    all), and complete, Delaunay (any triangulation oracle), MST (any
    spanning-tree oracle returning the square shape scipy returns), kNN and
    bipartite return edges whose two endpoints carry the same batch id. -/
theorem no_cross_batch_edges :
    (∀ (n : ℕ) (mat : List (List ℤ)), loop_graph n = some mat →
      ∀ e ∈ decodeIncidence mat, e.1 = e.2) ∧
    (∀ (batch_ids : List ℤ) (dist_mat : Option (ℕ → ℕ → ℚ)) (max_dist : ℚ)
      (es : List (ℕ × ℕ)),
      complete_graph batch_ids dist_mat max_dist = Except.ok es →
      ∀ e ∈ es, batch_ids.getD e.1 0 = batch_ids.getD e.2 0) ∧
    (∀ (triOracle : List (ℚ × ℚ × ℚ) → List (List ℕ))
      (data : List ((ℚ × ℚ × ℚ) × ℤ)) (clusts : List (List ℕ))
      (batch_ids : List ℤ) (dist_mat : Option (ℕ → ℕ → ℚ)) (max_dist : ℚ)
      (es : List (ℕ × ℕ)),
      delaunay_graph triOracle data clusts batch_ids dist_mat max_dist =
        Except.ok es →
      ∀ e ∈ es, batch_ids.getD e.1 0 = batch_ids.getD e.2 0) ∧
    (∀ (mstOracle : List (List ℚ) → List (List ℚ)) (batch_ids : List ℤ)
      (dist_mat : ℕ → ℕ → ℚ) (max_dist : ℚ), MstShape mstOracle →
      ∀ e ∈ mst_graph mstOracle batch_ids dist_mat max_dist,
        batch_ids.getD e.1 0 = batch_ids.getD e.2 0) ∧
    (∀ (batch_ids : List ℤ) (k : ℕ) (dist_mat : ℕ → ℕ → ℚ),
      ∀ e ∈ knn_graph batch_ids k dist_mat,
        batch_ids.getD e.1 0 = batch_ids.getD e.2 0) ∧
    (∀ (batch_ids : List ℤ) (primaries : List Bool)
      (dist_mat : Option (ℕ → ℕ → ℚ)) (max_dist : ℚ) (directed : Bool)
      (directed_to : String) (es : List (ℕ × ℕ)),
      bipartite_graph batch_ids primaries dist_mat max_dist directed
        directed_to = Except.ok es →
      ∀ e ∈ es, batch_ids.getD e.1 0 = batch_ids.getD e.2 0) := by
  refine ⟨?_, ?_, ?_, ?_, ?_, ?_⟩
  · -- loop_graph
    intro n mat hmat
    match n with
    | 0 =>
        have h : loop_graph 0 = some [] := rfl
        rw [h] at hmat
        obtain rfl : ([] : List (List ℤ)) = mat := by simpa using hmat
        simp [decodeIncidence]
    | 1 =>
        have h : loop_graph 1 = none := rfl
        rw [h] at hmat
        simp at hmat
    | 2 =>
        have h : loop_graph 2 = some [[0, 1], [0, 1]] := rfl
        rw [h] at hmat
        obtain rfl : [[(0:ℤ), 1], [0, 1]] = mat := by simpa using hmat
        decide
    | (m+3) =>
        rw [loop_graph_ge3] at hmat
        simp at hmat
  · -- complete_graph
    intro batch_ids dist_mat max_dist es hes e he
    unfold complete_graph at hes
    by_cases h0 : edgeCountZ batch_ids = 0
    · rw [if_pos h0] at hes
      obtain rfl : ([] : List (ℕ × ℕ)) = es := by simpa using hes
      simp at he
    · rw [if_neg h0] at hes
      obtain ⟨y, hy, rfl⟩ := exceptMap_ok hes
      rw [mem_addReciprocal] at he
      have hsub := pruneEdges_ok_sub hy
      have hpair : ∀ p ∈ completePairsAux batch_ids 0,
          batch_ids.getD p.1 0 = batch_ids.getD p.2 0 := by
        intro p hp
        rw [mem_completePairsAux] at hp
        obtain ⟨a, c, hac, hc, heq, rfl⟩ := hp
        simpa using heq
      rcases he with h | h
      · exact hpair e (hsub e h)
      · exact (hpair _ (hsub _ h)).symm
  · -- delaunay_graph
    intro triOracle data clusts batch_ids dist_mat max_dist es hes e he
    simp only [delaunay_graph] at hes
    obtain ⟨y, hy, rfl⟩ := exceptMap_ok hes
    have hsub := pruneEdges_ok_sub hy
    rw [mem_addReciprocal] at he
    have hcore : ∀ p ∈ (npUnique batch_ids).flatMap
        (delaunayBatch triOracle data clusts batch_ids),
        batch_ids.getD p.1 0 = batch_ids.getD p.2 0 := by
      intro p hp
      rcases List.mem_flatMap.mp hp with ⟨b, hb, hpb⟩
      obtain ⟨i, idx, hi, hidx, rfl⟩ := mem_delaunayBatch _ _ _ _ _ _ hpb
      simp only
      rw [clustIds_getD_batch batch_ids b i hi,
        clustIds_getD_batch batch_ids b idx hidx]
    rcases he with h | h
    · exact hcore e (hsub e h)
    · exact (hcore _ (hsub _ h)).symm
  · -- mst_graph
    intro mstOracle batch_ids dist_mat max_dist hshape e he
    simp only [mst_graph] at he
    rw [mem_addReciprocal] at he
    have hcore : ∀ p ∈ (npUnique batch_ids).flatMap
        (mstBatch mstOracle batch_ids dist_mat),
        batch_ids.getD p.1 0 = batch_ids.getD p.2 0 := by
      intro p hp
      rcases List.mem_flatMap.mp hp with ⟨b, hb, hpb⟩
      obtain ⟨i, idx, hi, hidx, rfl⟩ := mem_mstBatch _ hshape _ _ _ _ hpb
      simp only
      rw [clustIds_getD_batch batch_ids b i hi,
        clustIds_getD_batch batch_ids b idx hidx]
    have hfil : ∀ p : ℕ × ℕ,
        p ∈ (if -1 < max_dist then
          ((npUnique batch_ids).flatMap
            (mstBatch mstOracle batch_ids dist_mat)).filter
            (fun e => decide (dist_mat e.1 e.2 < max_dist))
        else (npUnique batch_ids).flatMap
          (mstBatch mstOracle batch_ids dist_mat)) →
        batch_ids.getD p.1 0 = batch_ids.getD p.2 0 := by
      intro p hp
      by_cases hmd : (-1 : ℚ) < max_dist
      · rw [if_pos hmd] at hp
        exact hcore p (List.mem_of_mem_filter hp)
      · rw [if_neg hmd] at hp
        exact hcore p hp
    rcases he with h | h
    · exact hfil e h
    · exact (hfil _ h).symm
  · -- knn_graph
    intro batch_ids k dist_mat e he
    simp only [knn_graph] at he
    rw [mem_addReciprocal] at he
    have hcore : ∀ p ∈ (npUnique batch_ids).flatMap
        (knnBatch batch_ids k dist_mat),
        batch_ids.getD p.1 0 = batch_ids.getD p.2 0 := by
      intro p hp
      rcases List.mem_flatMap.mp hp with ⟨b, hb, hpb⟩
      obtain ⟨i, idx, hi, hidx, rfl⟩ := mem_knnBatch _ _ _ _ _ hpb
      simp only
      rw [clustIds_getD_batch batch_ids b i hi,
        clustIds_getD_batch batch_ids b idx hidx]
    rcases he with h | h
    · exact hcore e h
    · exact (hcore _ h).symm
  · -- bipartite_graph
    intro batch_ids primaries dist_mat max_dist directed directed_to es hes e he
    simp only [bipartite_graph] at hes
    obtain ⟨y, hy, hfy⟩ := exceptBind_ok hes
    have hsubcore := pruneEdges_ok_sub hy
    have hmem : ∀ p ∈ es, p ∈ y ∨ (p.2, p.1) ∈ y := by
      by_cases hd : directed = true
      · rw [if_pos hd] at hfy
        by_cases hp' : directed_to = "primary"
        · rw [if_pos hp'] at hfy
          obtain rfl : es = y.map (fun e => (e.2, e.1)) := by
            simpa using hfy.symm
          intro p hp
          rcases List.mem_map.mp hp with ⟨q, hq, rfl⟩
          right
          simpa using hq
        · rw [if_neg hp'] at hfy
          by_cases hs' : directed_to = "secondary"
          · rw [if_pos hs'] at hfy
            obtain rfl : es = y := by simpa using hfy.symm
            exact fun p hp => Or.inl hp
          · rw [if_neg hs'] at hfy
            simp at hfy
      · rw [if_neg hd] at hfy
        obtain rfl : es = addReciprocal y := by simpa using hfy.symm
        intro p hp
        rwa [mem_addReciprocal] at hp
    have hy' : ∀ p ∈ y, batch_ids.getD p.1 0 = batch_ids.getD p.2 0 :=
      fun p hp => mem_bipartite_core batch_ids primaries p (hsubcore p hp)
    rcases hmem e he with h | h
    · exact hy' e h
    · exact (hy' _ h).symm

theorem no_cross_batch_edges_witness :
    ((0, 1) ∈ [((0:ℕ), (1:ℕ)), (1, 0)]) ∧
      ([(0:ℤ), 0].getD 0 0 = [(0:ℤ), 0].getD 1 0) :=
  ⟨by decide, no_cross_batch_edges.2.1 [0, 0] none (-1) [(0, 1), (1, 0)]
    (by rfl) (0, 1) (by decide)⟩

/-- C3: every strategy other than the explicitly directed bipartite one
    returns a reciprocal-closed edge set: for complete, Delaunay (any
    oracle), MST (any oracle), kNN and bipartite with directed=False, every
    returned edge (i, j) with i ≠ j has (j, i) in the returned set too. -/
theorem undirected_strategies_reciprocal :
    (∀ (batch_ids : List ℤ) (dist_mat : Option (ℕ → ℕ → ℚ)) (max_dist : ℚ)
      (es : List (ℕ × ℕ)) (i j : ℕ),
      complete_graph batch_ids dist_mat max_dist = Except.ok es →
      (i, j) ∈ es → i ≠ j → (j, i) ∈ es) ∧
    (∀ (triOracle : List (ℚ × ℚ × ℚ) → List (List ℕ))
      (data : List ((ℚ × ℚ × ℚ) × ℤ)) (clusts : List (List ℕ))
      (batch_ids : List ℤ) (dist_mat : Option (ℕ → ℕ → ℚ)) (max_dist : ℚ)
      (es : List (ℕ × ℕ)) (i j : ℕ),
      delaunay_graph triOracle data clusts batch_ids dist_mat max_dist =
        Except.ok es →
      (i, j) ∈ es → i ≠ j → (j, i) ∈ es) ∧
    (∀ (mstOracle : List (List ℚ) → List (List ℚ)) (batch_ids : List ℤ)
      (dist_mat : ℕ → ℕ → ℚ) (max_dist : ℚ) (i j : ℕ),
      (i, j) ∈ mst_graph mstOracle batch_ids dist_mat max_dist → i ≠ j →
      (j, i) ∈ mst_graph mstOracle batch_ids dist_mat max_dist) ∧
    (∀ (batch_ids : List ℤ) (k : ℕ) (dist_mat : ℕ → ℕ → ℚ) (i j : ℕ),
      (i, j) ∈ knn_graph batch_ids k dist_mat → i ≠ j →
      (j, i) ∈ knn_graph batch_ids k dist_mat) ∧
    (∀ (batch_ids : List ℤ) (primaries : List Bool)
      (dist_mat : Option (ℕ → ℕ → ℚ)) (max_dist : ℚ) (directed_to : String)
      (es : List (ℕ × ℕ)) (i j : ℕ),
      bipartite_graph batch_ids primaries dist_mat max_dist false
        directed_to = Except.ok es →
      (i, j) ∈ es → i ≠ j → (j, i) ∈ es) := by
  refine ⟨?_, ?_, ?_, ?_, ?_⟩
  · intro batch_ids dist_mat max_dist es i j hes hij _
    unfold complete_graph at hes
    by_cases h0 : edgeCountZ batch_ids = 0
    · rw [if_pos h0] at hes
      obtain rfl : ([] : List (ℕ × ℕ)) = es := by simpa using hes
      simp at hij
    · rw [if_neg h0] at hes
      obtain ⟨y, hy, rfl⟩ := exceptMap_ok hes
      exact swap_mem_addReciprocal hij
  · intro triOracle data clusts batch_ids dist_mat max_dist es i j hes hij _
    simp only [delaunay_graph] at hes
    obtain ⟨y, hy, rfl⟩ := exceptMap_ok hes
    exact swap_mem_addReciprocal hij
  · intro mstOracle batch_ids dist_mat max_dist i j hij _
    simp only [mst_graph] at hij ⊢
    exact swap_mem_addReciprocal hij
  · intro batch_ids k dist_mat i j hij _
    simp only [knn_graph] at hij ⊢
    exact swap_mem_addReciprocal hij
  · intro batch_ids primaries dist_mat max_dist directed_to es i j hes hij _
    simp only [bipartite_graph] at hes
    obtain ⟨y, hy, hfy⟩ := exceptBind_ok hes
    rw [if_neg (by simp)] at hfy
    obtain rfl : es = addReciprocal y := by simpa using hfy.symm
    exact swap_mem_addReciprocal hij

theorem undirected_strategies_reciprocal_witness :
    ((0, 1) ∈ [((0:ℕ), (1:ℕ)), (1, 0)]) ∧ (0 : ℕ) ≠ 1 ∧
      ((1, 0) ∈ [((0:ℕ), (1:ℕ)), (1, 0)]) :=
  ⟨by decide, by decide,
    undirected_strategies_reciprocal.1 [0, 0] none (-1) [(0, 1), (1, 0)] 0 1
      (by rfl) (by decide) (by decide)⟩

/-- C10: the public wrapper inter_cluster_distance raises a NameError on
    every input before any computation (its body names `clusts` and `mode`,
    neither of which is bound — the parameter is spelled `clsuts`), so the
    per-pair distance contract is only realized by _inter_cluster_distance,
    never through this wrapper. -/
theorem inter_cluster_distance_wrapper_raises (voxels : List Vec3)
    (clsuts : List (List ℕ)) (batch_ids : List ℤ) :
    inter_cluster_distance voxels clsuts batch_ids =
      Except.error "NameError: name clusts is not defined" := rfl

/- Euclidean geometry lemmas for the edge-feature rows. -/

theorem vnorm_nonneg (a : Vec3) : 0 ≤ vnorm a := Real.sqrt_nonneg _

theorem vnorm_eq_zero_iff (a : Vec3) : vnorm a = 0 ↔ a = (0, 0, 0) := by
  obtain ⟨x, y, z⟩ := a
  unfold vnorm
  simp only
  constructor
  · intro h
    have hnn : (0:ℝ) ≤ x^2 + y^2 + z^2 := by positivity
    have hs : x^2 + y^2 + z^2 = 0 := (Real.sqrt_eq_zero hnn).mp h
    have hx : x = 0 := by nlinarith [sq_nonneg x, sq_nonneg y, sq_nonneg z]
    have hy : y = 0 := by nlinarith [sq_nonneg x, sq_nonneg y, sq_nonneg z]
    have hz : z = 0 := by nlinarith [sq_nonneg x, sq_nonneg y, sq_nonneg z]
    simp [hx, hy, hz]
  · intro h
    obtain ⟨hx, hy, hz⟩ : x = 0 ∧ y = 0 ∧ z = 0 := by
      simpa [Prod.ext_iff] using h
    simp [hx, hy, hz]

theorem vnorm_smul (c : ℝ) (a : Vec3) : vnorm (vsmul c a) = |c| * vnorm a := by
  obtain ⟨x, y, z⟩ := a
  unfold vnorm vsmul
  simp only
  rw [show (c*x)^2 + (c*y)^2 + (c*z)^2 = c^2 * (x^2 + y^2 + z^2) by ring,
    Real.sqrt_mul (sq_nonneg c), Real.sqrt_sq_eq_abs]

theorem edist3_comm (a b : Vec3) : edist3 a b = edist3 b a := by
  obtain ⟨x, y, z⟩ := a
  obtain ⟨u, v, w⟩ := b
  unfold edist3 vnorm vsub
  simp only
  congr 1
  ring

theorem normalized_props (d : Vec3) :
    ((if 0 < vnorm d then vsmul (1 / vnorm d) d else d) = ((0, 0, 0) : Vec3) ↔
      vnorm d = 0) ∧
    (vnorm d ≠ 0 →
      vnorm (if 0 < vnorm d then vsmul (1 / vnorm d) d else d) = 1) := by
  by_cases h : 0 < vnorm d
  · rw [if_pos h]
    have hne : vnorm d ≠ 0 := ne_of_gt h
    have hn1 : vnorm (vsmul (1 / vnorm d) d) = 1 := by
      rw [vnorm_smul, abs_of_pos (by positivity), one_div,
        inv_mul_cancel₀ hne]
    refine ⟨⟨fun h0 => ?_, fun h0 => absurd h0 hne⟩, fun _ => hn1⟩
    rw [h0, (vnorm_eq_zero_iff ((0,0,0) : Vec3)).mpr rfl] at hn1
    exact absurd hn1 (by norm_num)
  · rw [if_neg h]
    have h0 : vnorm d = 0 := le_antisymm (not_lt.mp h) (vnorm_nonneg d)
    exact ⟨⟨fun _ => h0, fun _ => (vnorm_eq_zero_iff d).mp h0⟩,
      fun hne => absurd h0 hne⟩

theorem trace_le_one (d u : Vec3)
    (hu : u = if 0 < vnorm d then vsmul (1 / vnorm d) d else d) :
    u.1 * u.1 + u.2.1 * u.2.1 + u.2.2 * u.2.2 ≤ 1 := by
  by_cases h : 0 < vnorm d
  · have hne : vnorm d ≠ 0 := ne_of_gt h
    have hn1 : vnorm u = 1 := by
      rw [hu]
      exact (normalized_props d).2 hne
    have hs : u.1^2 + u.2.1^2 + u.2.2^2 = 1 := by
      have hnn : (0:ℝ) ≤ u.1^2 + u.2.1^2 + u.2.2^2 := by positivity
      have hsq : Real.sqrt (u.1^2 + u.2.1^2 + u.2.2^2) = 1 := hn1
      calc u.1^2 + u.2.1^2 + u.2.2^2 =
          Real.sqrt (u.1^2 + u.2.1^2 + u.2.2^2) ^ 2 :=
            (Real.sq_sqrt hnn).symm
        _ = 1 := by rw [hsq]; norm_num
    nlinarith [hs]
  · have h0 : vnorm d = 0 := le_antisymm (not_lt.mp h) (vnorm_nonneg d)
    have hd0 : d = ((0,0,0) : Vec3) := (vnorm_eq_zero_iff d).mp h0
    rw [if_neg h, hd0] at hu
    rw [hu]
    norm_num

theorem featRow_props (p q d : Vec3) (hd : vnorm d = edist3 p q) :
    FeatureRowProps (vlist p ++ vlist q ++
      vlist (if 0 < vnorm d then vsmul (1 / vnorm d) d else d) ++ [vnorm d] ++
      outerFlat (if 0 < vnorm d then vsmul (1 / vnorm d) d else d)) := by
  set u := if 0 < vnorm d then vsmul (1 / vnorm d) d else d with hu
  have hrow : vlist p ++ vlist q ++ vlist u ++ [vnorm d] ++ outerFlat u =
      [p.1, p.2.1, p.2.2, q.1, q.2.1, q.2.2, u.1, u.2.1, u.2.2, vnorm d,
       u.1 * u.1, u.1 * u.2.1, u.1 * u.2.2,
       u.2.1 * u.1, u.2.1 * u.2.1, u.2.1 * u.2.2,
       u.2.2 * u.1, u.2.2 * u.2.1, u.2.2 * u.2.2] := by
    simp [vlist, outerFlat]
  rw [hrow]
  unfold FeatureRowProps
  refine ⟨by simp, ?_, ?_, ?_, ?_, ?_, ?_, ?_, ?_⟩
  · simpa using vnorm_nonneg d
  · simpa using hd
  · have := (normalized_props d).1
    rw [← hu] at this
    simpa [Prod.ext_iff] using this
  · intro h9
    have hne : vnorm d ≠ 0 := by simpa using h9
    have := (normalized_props d).2 hne
    rw [← hu] at this
    simpa using this
  · simp [outerFlat]
  · intro a b ha hb
    interval_cases a <;> interval_cases b <;> simp <;> ring
  · have := trace_le_one d u hu
    simpa using this
  · intro w
    have hsq := sq_nonneg (u.1 * w.1 + u.2.1 * w.2.1 + u.2.2 * w.2.2)
    simp only [List.getD_cons_succ, List.getD_cons_zero]
    nlinarith [hsq]

theorem clusterEdgeRow_props (data : List Vec3) (clusts : List (List ℕ))
    (e : ℕ × ℕ) : FeatureRowProps (clusterEdgeRow data clusts e) := by
  unfold clusterEdgeRow
  exact featRow_props _ _ _ rfl

theorem voxelEdgeRow_props (data : List Vec3) (e : ℕ × ℕ) :
    FeatureRowProps (voxelEdgeRow data e) := by
  unfold voxelEdgeRow
  exact featRow_props _ _ _ (edist3_comm _ _)

/-- C5: every row the edge-feature extractors produce (cluster and voxel
    variants) satisfies the geometric contract of FeatureRowProps: the
    distance entry (index 9) is nonnegative and equals the Euclidean distance
    of the two CPA points (indices 0-2 and 3-5), the displacement block
    (indices 6-8) is zero exactly when the distance is 0 and a unit vector
    otherwise, and the last nine entries are the flattened outer product of
    the displacement with itself — symmetric, positive semi-definite, trace
    at most 1. -/
theorem edge_features_geometry :
    (∀ (data : List Vec3) (clusts : List (List ℕ))
      (edge_index : List (ℕ × ℕ)) (k : ℕ), k < edge_index.length →
      FeatureRowProps
        ((_get_cluster_edge_features data clusts edge_index).getD k [])) ∧
    (∀ (data : List Vec3) (edge_index : List (ℕ × ℕ)) (k : ℕ),
      k < edge_index.length →
      FeatureRowProps ((_get_voxel_edge_features data edge_index).getD k [])) := by
  constructor
  · intro data clusts edge_index k hk
    unfold _get_cluster_edge_features
    rw [getD_map_lt _ _ k [] (0, 0) hk]
    exact clusterEdgeRow_props data clusts _
  · intro data edge_index k hk
    unfold _get_voxel_edge_features
    rw [getD_map_lt _ _ k [] (0, 0) hk]
    exact voxelEdgeRow_props data _

theorem edge_features_geometry_witness :
    (0 : ℕ) < 1 ∧
      FeatureRowProps ((_get_cluster_edge_features [] [] [(0, 0)]).getD 0 []) ∧
      FeatureRowProps ((_get_voxel_edge_features [] [(0, 0)]).getD 0 []) :=
  ⟨by decide, edge_features_geometry.1 [] [] [(0, 0)] 0 (by decide),
    edge_features_geometry.2 [] [(0, 0)] 0 (by decide)⟩

/- np.min over the cdist matrix. -/

theorem foldl_min_le_self : ∀ (l : List ℝ) (x : ℝ), l.foldl min x ≤ x := by
  intro l
  induction l with
  | nil => intro x; exact le_refl x
  | cons y ys ih =>
      intro x
      calc (y :: ys).foldl min x = ys.foldl min (min x y) := rfl
        _ ≤ min x y := ih (min x y)
        _ ≤ x := min_le_left x y

theorem foldl_min_le_mem : ∀ (l : List ℝ) (x y : ℝ), y ∈ l → l.foldl min x ≤ y := by
  intro l
  induction l with
  | nil => intro x y hy; simp at hy
  | cons z zs ih =>
      intro x y hy
      rcases List.mem_cons.mp hy with rfl | hy'
      · calc (y :: zs).foldl min x = zs.foldl min (min x y) := rfl
          _ ≤ min x y := foldl_min_le_self zs (min x y)
          _ ≤ y := min_le_right x y
      · exact ih (min x z) y hy'

theorem foldl_min_mem : ∀ (l : List ℝ) (x : ℝ), l.foldl min x ∈ x :: l := by
  intro l
  induction l with
  | nil => intro x; simp
  | cons y ys ih =>
      intro x
      have hred : (y :: ys).foldl min x = ys.foldl min (min x y) := rfl
      rw [hred]
      have h := ih (min x y)
      rcases List.mem_cons.mp h with h' | h'
      · rw [h']
        rcases min_choice x y with hc | hc
        · rw [hc]
          exact List.mem_cons_self x (y :: ys)
        · rw [hc]
          exact List.mem_cons.mpr (Or.inr (List.mem_cons_self y ys))
      · exact List.mem_cons.mpr (Or.inr (List.mem_cons.mpr (Or.inr h')))

theorem npMin_le (m : List (List ℝ)) (z : ℝ) (hz : z ∈ m.flatten) :
    npMin m ≤ z := by
  unfold npMin
  cases hfl : m.flatten with
  | nil => rw [hfl] at hz; simp at hz
  | cons x xs =>
      rw [hfl] at hz
      rcases List.mem_cons.mp hz with rfl | hz'
      · exact foldl_min_le_self xs z
      · exact foldl_min_le_mem xs x z hz'

theorem npMin_mem (m : List (List ℝ)) (h : m.flatten ≠ []) :
    npMin m ∈ m.flatten := by
  unfold npMin
  cases hfl : m.flatten with
  | nil => exact absurd hfl h
  | cons x xs => exact foldl_min_mem xs x

theorem mem_cdist_flatten (p q : List Vec3) (z : ℝ) :
    z ∈ (cdist_nb p q).flatten ↔ ∃ a ∈ p, ∃ b ∈ q, edist3 a b = z := by
  unfold cdist_nb
  constructor
  · intro hz
    rcases List.mem_flatten.mp hz with ⟨row, hrow, hzrow⟩
    rcases List.mem_map.mp hrow with ⟨a, ha, rfl⟩
    rcases List.mem_map.mp hzrow with ⟨b, hb, hbz⟩
    exact ⟨a, ha, b, hb, hbz⟩
  · rintro ⟨a, ha, b, hb, rfl⟩
    exact List.mem_flatten.mpr
      ⟨_, List.mem_map_of_mem _ ha, List.mem_map_of_mem _ hb⟩

theorem cdist_flatten_ne_nil (p q : List Vec3) (hp : p ≠ []) (hq : q ≠ []) :
    (cdist_nb p q).flatten ≠ [] := by
  cases p with
  | nil => exact absurd rfl hp
  | cons a as =>
      cases q with
      | nil => exact absurd rfl hq
      | cons b bs => simp [cdist_nb]

theorem mget_icd (voxels : List Vec3) (clusts : List (List ℕ))
    (batch_ids : List ℤ) (i j : ℕ) :
    mget (_inter_cluster_distance voxels clusts batch_ids) i j =
      if i < batch_ids.length ∧ j < batch_ids.length then
        icdEntry voxels clusts batch_ids i j else 0 := by
  unfold mget _inter_cluster_distance
  by_cases hi : i < batch_ids.length
  · rw [getD_map_range _ _ i [], if_pos hi]
    by_cases hj : j < batch_ids.length
    · rw [getD_map_range _ _ j 0, if_pos hj, if_pos ⟨hi, hj⟩]
    · rw [getD_map_range _ _ j 0, if_neg hj, if_neg (fun hc => hj hc.2)]
  · rw [getD_map_range _ _ i [], if_neg hi]
    rw [if_neg (fun hc => hi hc.1)]
    simp

theorem icdEntry_symm (voxels : List Vec3) (clusts : List (List ℕ))
    (batch_ids : List ℤ) (i j : ℕ) :
    icdEntry voxels clusts batch_ids i j = icdEntry voxels clusts batch_ids j i := by
  unfold icdEntry
  split_ifs <;> first | rfl | omega

/-- C2: the distance matrix of _inter_cluster_distance (sequential loop
    semantics) is C×C, symmetric, zero on the diagonal and across batches,
    and each same-batch off-diagonal entry is the minimum Euclidean distance
    between the two clusters' voxels: a lower bound on every pairwise
    distance that is attained by some voxel pair. -/
theorem inter_cluster_distance_matrix_spec (voxels : List Vec3)
    (clusts : List (List ℕ)) (batch_ids : List ℤ) :
    ((_inter_cluster_distance voxels clusts batch_ids).length =
        batch_ids.length ∧
      ∀ row ∈ _inter_cluster_distance voxels clusts batch_ids,
        row.length = batch_ids.length) ∧
    (∀ i j, mget (_inter_cluster_distance voxels clusts batch_ids) i j =
      mget (_inter_cluster_distance voxels clusts batch_ids) j i) ∧
    (∀ i, mget (_inter_cluster_distance voxels clusts batch_ids) i i = 0) ∧
    (∀ i j, batch_ids.getD i 0 ≠ batch_ids.getD j 0 →
      mget (_inter_cluster_distance voxels clusts batch_ids) i j = 0) ∧
    (∀ i j, i < batch_ids.length → j < batch_ids.length → i ≠ j →
      batch_ids.getD i 0 = batch_ids.getD j 0 →
      clusts.getD i [] ≠ [] → clusts.getD j [] ≠ [] →
      (∀ x ∈ clusterPoints voxels clusts i,
        ∀ y ∈ clusterPoints voxels clusts j,
        mget (_inter_cluster_distance voxels clusts batch_ids) i j ≤
          edist3 x y) ∧
      (∃ x ∈ clusterPoints voxels clusts i,
        ∃ y ∈ clusterPoints voxels clusts j,
        mget (_inter_cluster_distance voxels clusts batch_ids) i j =
          edist3 x y)) := by
  refine ⟨⟨?_, ?_⟩, ?_, ?_, ?_, ?_⟩
  · unfold _inter_cluster_distance
    rw [List.length_map, List.length_range]
  · intro row hrow
    unfold _inter_cluster_distance at hrow
    rcases List.mem_map.mp hrow with ⟨i, _, rfl⟩
    rw [List.length_map, List.length_range]
  · intro i j
    rw [mget_icd, mget_icd]
    by_cases hi : i < batch_ids.length ∧ j < batch_ids.length
    · rw [if_pos hi, if_pos ⟨hi.2, hi.1⟩, icdEntry_symm]
    · rw [if_neg hi, if_neg (fun hc => hi ⟨hc.2, hc.1⟩)]
  · intro i
    rw [mget_icd]
    by_cases hi : i < batch_ids.length ∧ i < batch_ids.length
    · rw [if_pos hi]
      unfold icdEntry
      rw [if_pos rfl, if_neg (lt_irrefl i), if_neg (lt_irrefl i)]
    · rw [if_neg hi]
  · intro i j hne
    rw [mget_icd]
    by_cases hi : i < batch_ids.length ∧ j < batch_ids.length
    · rw [if_pos hi]
      unfold icdEntry
      rw [if_neg hne]
    · rw [if_neg hi]
  · intro i j hi hj hij hb hci hcj
    have hpi : clusterPoints voxels clusts i ≠ [] := by
      unfold clusterPoints
      simpa using hci
    have hpj : clusterPoints voxels clusts j ≠ [] := by
      unfold clusterPoints
      simpa using hcj
    rw [mget_icd, if_pos ⟨hi, hj⟩]
    unfold icdEntry
    rw [if_pos hb]
    rcases lt_trichotomy i j with h | h | h
    · rw [if_pos h]
      constructor
      · intro x hx y hy
        exact npMin_le _ _ ((mem_cdist_flatten _ _ _).mpr ⟨x, hx, y, hy, rfl⟩)
      · have hmem := npMin_mem (cdist_nb (clusterPoints voxels clusts i)
          (clusterPoints voxels clusts j)) (cdist_flatten_ne_nil _ _ hpi hpj)
        rcases (mem_cdist_flatten _ _ _).mp hmem with ⟨x, hx, y, hy, hxy⟩
        exact ⟨x, hx, y, hy, hxy.symm⟩
    · exact absurd h hij
    · rw [if_neg (lt_asymm h), if_pos h]
      constructor
      · intro x hx y hy
        have := npMin_le (cdist_nb (clusterPoints voxels clusts j)
          (clusterPoints voxels clusts i)) (edist3 y x)
          ((mem_cdist_flatten _ _ _).mpr ⟨y, hy, x, hx, rfl⟩)
        rwa [edist3_comm y x] at this
      · have hmem := npMin_mem (cdist_nb (clusterPoints voxels clusts j)
          (clusterPoints voxels clusts i)) (cdist_flatten_ne_nil _ _ hpj hpi)
        rcases (mem_cdist_flatten _ _ _).mp hmem with ⟨y, hy, x, hx, hxy⟩
        exact ⟨x, hx, y, hy, by rw [← hxy, edist3_comm]⟩

theorem inter_cluster_distance_matrix_spec_witness :
    ((0 : ℕ) < 2 ∧ (1 : ℕ) < 2 ∧ (0 : ℕ) ≠ 1 ∧
      ([(0 : ℤ), 0]).getD 0 0 = ([(0 : ℤ), 0]).getD 1 0 ∧
      ([[0], [1]] : List (List ℕ)).getD 0 [] ≠ [] ∧
      ([[0], [1]] : List (List ℕ)).getD 1 [] ≠ []) ∧
    ((∀ x ∈ clusterPoints [(0, 0, 0), (1, 0, 0)] [[0], [1]] 0,
        ∀ y ∈ clusterPoints [(0, 0, 0), (1, 0, 0)] [[0], [1]] 1,
        mget (_inter_cluster_distance [(0, 0, 0), (1, 0, 0)] [[0], [1]]
          [0, 0]) 0 1 ≤ edist3 x y) ∧
      (∃ x ∈ clusterPoints [(0, 0, 0), (1, 0, 0)] [[0], [1]] 0,
        ∃ y ∈ clusterPoints [(0, 0, 0), (1, 0, 0)] [[0], [1]] 1,
        mget (_inter_cluster_distance [(0, 0, 0), (1, 0, 0)] [[0], [1]]
          [0, 0]) 0 1 = edist3 x y)) :=
  ⟨⟨by decide, by decide, by decide, by decide, by decide, by decide⟩,
    (inter_cluster_distance_matrix_spec [(0, 0, 0), (1, 0, 0)] [[0], [1]]
      [0, 0]).2.2.2.2 0 1 (by decide) (by decide) (by decide) (by decide)
      (by decide) (by decide)⟩

end GnnNetwork
